import Mathlib

/-!
# Verification of the TransSubAuto chunked subtitle-translation pipeline

Shallow embedding of the core text-processing and orchestration logic of the
TransSubAuto repository (src/utils/vttUtils.ts, src/services/geminiService.ts,
src/App.tsx).  Strings are modelled as `List Char`; JavaScript's number
arithmetic on cue counts is modelled exactly (counts are small naturals, and
the single fractional constant 0.95 is represented as the rational 95/100,
which agrees with the IEEE-754 comparison performed by the source for all
realistic cue counts).
-/

/-- Characters treated as whitespace by JavaScript's `String.prototype.trim`
and by the `\s` regex class (the subset relevant to this code base). -/
def isWsChar (c : Char) : Bool :=
  c = ' ' || c = '\t' || c = '\n' || c = '\r' || c = '\x0b' || c = '\x0c' ||
  c = '\u00A0' || c = '\uFEFF'

/-- JavaScript `String.prototype.trim`: drop whitespace from both ends. -/
def trimStr (s : List Char) : List Char :=
  (((s.dropWhile isWsChar).reverse).dropWhile isWsChar).reverse

/-- JavaScript `vttContent.replace(/\r\n/g, '\n')`: one left-to-right pass
replacing each (non-overlapping) occurrence of CR LF by LF. -/
def normalizeNl : List Char → List Char
  | '\r' :: '\n' :: rest => '\n' :: normalizeNl rest
  | c :: rest => c :: normalizeNl rest
  | [] => []

/-- Does the text contain the timestamp-arrow marker `-->` as a substring
(JavaScript `line.includes('-->')`)? -/
def containsArrow : List Char → Bool
  | '-' :: '-' :: '>' :: _ => true
  | _ :: rest => containsArrow rest
  | [] => false

/-- `countCues` from src/utils/vttUtils.ts: the number of (non-overlapping,
left-to-right) occurrences of `-->`, i.e. the length of the match list of the
global regex for the arrow token (0 for the empty string). -/
def countCues : List Char → Nat
  | '-' :: '-' :: '>' :: rest => countCues rest + 1
  | _ :: rest => countCues rest
  | [] => 0

/-- JavaScript `content.split('\n')` (always at least one fragment). -/
def linesOf : List Char → List (List Char)
  | [] => [[]]
  | c :: rest =>
    if c = '\n' then [] :: linesOf rest
    else
      match linesOf rest with
      | [] => [[c]]
      | l :: ls => (c :: l) :: ls

/-- JavaScript `Array.prototype.join` with the given separator. -/
def joinSep {α : Type} (sep : List α) : List (List α) → List α
  | [] => []
  | [x] => x
  | x :: y :: t => x ++ sep ++ joinSep sep (y :: t)

-- sanity checks on the embedding of the JS primitives
example : linesOf "a\nb".toList = ["a".toList, "b".toList] := by decide
example : linesOf "".toList = [[]] := by decide
example : linesOf "a\n".toList = ["a".toList, []] := by decide
example : joinSep ['\n'] ["a".toList, "b".toList] = "a\nb".toList := by decide
example : countCues "x --> y --> z".toList = 2 := by decide
example : countCues "--->".toList = 1 := by decide
example : normalizeNl "a\r\nb\r".toList = "a\nb\r".toList := by decide
example : normalizeNl "a\r\r\nb".toList = "a\r\nb".toList := by decide
example : trimStr "  a b \n".toList = "a b".toList := by decide
example : containsArrow "ab-->cd".toList = true := by decide
example : containsArrow "ab->cd".toList = false := by decide

/-- A blank-line separator (two newlines), the cue/chunk joiner of the source. -/
def nl2 : List Char := ['\n', '\n']

/-- Drop a run of newlines (the greedy tail of a regex match on two-or-more
newlines, after the first two). -/
def dropNls (s : List Char) : List Char := s.dropWhile (fun c => c = '\n')

/-- Worker for `splitDNL`; `acc` holds the current fragment reversed. -/
def splitDNLAux : List Char → List Char → List (List Char)
  | acc, '\n' :: '\n' :: rest => acc.reverse :: splitDNLAux [] (dropNls rest)
  | acc, c :: rest => splitDNLAux (c :: acc) rest
  | acc, [] => [acc.reverse]
termination_by _ s => s.length
decreasing_by
  · have h1 : List.Sublist (dropNls rest) rest := List.dropWhile_sublist (fun c => c = '\n')
    have h2 := h1.length_le
    simp only [List.length_cons]
    omega
  · simp only [List.length_cons]; omega

/-- JavaScript `cuesContent.split` on the regex matching two-or-more newlines:
fragments between maximal runs of at least two `\n`. -/
def splitDNL (s : List Char) : List (List Char) := splitDNLAux [] s

/-- The backward walk of `splitVttIntoCues` (src/utils/vttUtils.ts lines
21-24): from line index `i`, step back while the preceding line has nonempty
trim, stopping at a blank line or the start of the document. -/
def walkBack (lns : List (List Char)) : Nat → Nat
  | 0 => 0
  | j + 1 => if trimStr (lns.getD j []) = [] then j + 1 else walkBack lns j

/-- Index of the first line containing the timestamp-arrow marker
(the `for` scan of src/utils/vttUtils.ts lines 16-28). -/
def findMarkerIdx : List (List Char) → Option Nat
  | [] => none
  | l :: ls => if containsArrow l then some 0 else (findMarkerIdx ls).map (· + 1)

/-- `splitVttIntoCues` from src/utils/vttUtils.ts: normalize line endings,
find the first line containing the arrow marker, walk back to the preceding
blank line, return the trimmed text before that boundary as header and the
blank-line separated blocks from the boundary on (nonblank ones) as cues.
With no marker anywhere, the whole trimmed input is the header. -/
def splitVttIntoCues (vttContent : List Char) : (List Char) × List (List Char) :=
  let normalizedContent := normalizeNl vttContent
  let lns := linesOf normalizedContent
  match findMarkerIdx lns with
  | none => (trimStr vttContent, [])
  | some i =>
      let b := walkBack lns i
      let header := trimStr (joinSep ['\n'] (lns.take b))
      let cuesContent := joinSep ['\n'] (lns.drop b)
      (header, (splitDNL cuesContent).filter (fun cue => !(trimStr cue).isEmpty))

/-- The grouping loop of `groupCuesIntoChunks` (src/utils/vttUtils.ts lines
56-61), as cue lists: slice off `chunkSize` cues at a time (the final slice
may be shorter).  Only called with `chunkSize > 0`, for which the head/tail
decomposition below agrees with `slice(i, i + chunkSize)`. -/
def chunkLists (chunkSize : Nat) : List (List Char) → List (List (List Char))
  | [] => []
  | c :: rest => (c :: rest.take (chunkSize - 1)) :: chunkLists chunkSize (rest.drop (chunkSize - 1))
termination_by l => l.length
decreasing_by
  simp only [List.length_drop, List.length_cons]
  omega

/-- `groupCuesIntoChunks` from src/utils/vttUtils.ts: throws on a
non-positive chunk size, otherwise groups the cues into slices of at most
`chunkSize` cues, each joined with a blank-line separator. -/
def groupCuesIntoChunks (cues : List (List Char)) (chunkSize : Int) : Except (List Char) (List (List Char)) :=
  if chunkSize ≤ 0 then Except.error "chunkSize must be a positive number.".toList
  else Except.ok ((chunkLists chunkSize.toNat cues).map (joinSep nl2))

-- sanity checks
example : splitDNL "a\n\nb\n\n\nc".toList = ["a".toList, "b".toList, "c".toList] := by
  simp [splitDNL, splitDNLAux, dropNls]
example : splitDNL "a\n".toList = ["a\n".toList] := by simp [splitDNL, splitDNLAux, dropNls]
example : splitDNL "a\n\n".toList = ["a".toList, []] := by simp [splitDNL, splitDNLAux, dropNls]
example : splitDNL "".toList = [[]] := by simp [splitDNL, splitDNLAux]
example : splitVttIntoCues "WEBVTT\n\n1\n00:00 --> 00:01\nhi\n\n2\n00:02 --> 00:03\nyo".toList =
    ("WEBVTT".toList, ["1\n00:00 --> 00:01\nhi".toList, "2\n00:02 --> 00:03\nyo".toList]) := by
  simp [splitVttIntoCues, normalizeNl, linesOf, findMarkerIdx, containsArrow, walkBack, trimStr,
    isWsChar, joinSep, splitDNL, splitDNLAux, dropNls]
example : splitVttIntoCues "no cues here".toList = ("no cues here".toList, []) := by
  simp [splitVttIntoCues, normalizeNl, linesOf, findMarkerIdx, containsArrow, walkBack, trimStr,
    isWsChar, joinSep, splitDNL, splitDNLAux, dropNls]
example : splitVttIntoCues "head\r\n\r\nid\r\n00 --> 01\r\ntext".toList =
    ("head".toList, ["id\n00 --> 01\ntext".toList]) := by
  simp [splitVttIntoCues, normalizeNl, linesOf, findMarkerIdx, containsArrow, walkBack, trimStr,
    isWsChar, joinSep, splitDNL, splitDNLAux, dropNls]
example : groupCuesIntoChunks ["a".toList, "b".toList, "c".toList] 2 =
    Except.ok ["a\n\nb".toList, "c".toList] := by
  simp [groupCuesIntoChunks, chunkLists, joinSep, nl2]
example : groupCuesIntoChunks ["a".toList] 0 = Except.error "chunkSize must be a positive number.".toList := by
  simp [groupCuesIntoChunks]

/-- Decimal rendering of a count, for embedding counts in error messages. -/
def natToStr (n : Nat) : List Char := (Nat.repr n).toList

/-- The `StructuralMismatch`-style message thrown by `validateTranslation`
(src/App.tsx line 125); it carries both cue counts. -/
def validationFailedMsg (originalCueCount translatedCueCount : Nat) : List Char :=
  "Validation Failed: Mismatched subtitle cues. Original: ".toList ++
    natToStr originalCueCount ++ ", Translated: ".toList ++ natToStr translatedCueCount ++
    ". The AI likely produced an incomplete or malformed response.".toList

/-- `validateTranslation` from src/App.tsx lines 116-127: whole-document
validation.  The source compares JavaScript numbers
(`translatedCueCount >= originalCueCount * 0.95`); for the cue counts this
code can produce, that IEEE-754 comparison coincides with the exact rational
comparison used here. -/
def validateTranslation (originalVtt finalAiOutput : List Char) : Except (List Char) Unit :=
  let originalCueCount := countCues originalVtt
  let translatedContent := trimStr finalAiOutput
  let translatedCueCount := countCues translatedContent
  if ¬ ((translatedCueCount : ℚ) ≥ (originalCueCount : ℚ) * (95 / 100)) ∨
      ¬ (translatedCueCount ≤ originalCueCount + 5) then
    Except.error (validationFailedMsg originalCueCount translatedCueCount)
  else
    Except.ok ()

/-- The framing marker opening translated content in the legacy prompt
protocol (src/utils/vttUtils.ts `extractTranslatedVttContent`). -/
def startMarker : List Char := "=== TRANSLATED VTT ===".toList

/-- The framing marker closing translated content. -/
def endMarker : List Char := "=== END OF TRANSLATION ===".toList

/-- The text after the first occurrence of `pat`, or `none` when `pat` does
not occur (the anchor search of the extraction regex). -/
def afterFirst (pat : List Char) : List Char → Option (List Char)
  | [] => none
  | c :: rest =>
    if pat.isPrefixOf (c :: rest) then some ((c :: rest).drop pat.length)
    else afterFirst pat rest

/-- Does optional whitespace followed by the end marker match a prefix of
`s`?  (The non-capturing alternative of the extraction regex; the marker
starts with a non-whitespace character, so greedy whitespace skipping is
exact.) -/
def matchEndAt (s : List Char) : Bool := endMarker.isPrefixOf (s.dropWhile isWsChar)

/-- The lazy capture of the extraction regex: the shortest prefix after
which optional whitespace plus the end marker matches, or the whole text
when it never does (the end-of-input alternative). -/
def findCapture : List Char → List Char
  | [] => []
  | c :: r => if matchEndAt (c :: r) then [] else c :: findCapture r

/-- `extractTranslatedVttContent` from src/utils/vttUtils.ts lines 81-86:
strip the framing markers from a raw model response via the regex match;
with no start marker, or an empty capture, fall back to the trimmed raw
text. -/
def extractTranslatedVttContent (rawText : List Char) : List Char :=
  match afterFirst startMarker rawText with
  | none => trimStr rawText
  | some after =>
    let cap := findCapture (after.dropWhile isWsChar)
    if cap = [] then trimStr rawText else trimStr cap

-- sanity checks for the extraction machinery
example : extractTranslatedVttContent "=== TRANSLATED VTT ===\nx --> y\n=== END OF TRANSLATION ===".toList
    = "x --> y".toList := by decide
example : extractTranslatedVttContent "noise === TRANSLATED VTT ===  x --> y".toList
    = "x --> y".toList := by decide
example : extractTranslatedVttContent "plain text".toList = "plain text".toList := by decide

/-- Job lifecycle status (src/App.tsx `TranslationJob.status`). -/
inductive JobStatus
  | queued
  | processing
  | completed
  | error
deriving DecidableEq

/-- The per-job fields updated by `updateJobStatus` during a run. -/
structure JobState where
  status : JobStatus
  translatedVtt : Option (List Char)
  error : Option (List Char)
  progress : Option (Nat × Nat)
deriving DecidableEq

/-- Which instruction payload a call to `translateVttWithChat` composes
(src/services/geminiService.ts lines 72-76): the full first-message prompt
when no chat session is supplied, the lean follow-up prompt otherwise. -/
inductive PayloadForm
  | first
  | followUp
deriving DecidableEq

/-- One remote-call attempt as observed by a run: which chunk, which
1-based attempt number, which payload form was sent, and whether the
attempt failed (transport error or chunk cue-count mismatch). -/
structure AttemptRecord where
  chunkIdx : Nat
  attempt : Nat
  form : PayloadForm
  failed : Bool
deriving DecidableEq

/-- The environment of a run: `oracle i a` is the outcome of the remote
call for chunk `i` at attempt `a` (a transport-error message, or the fully
accumulated streamed response text), and `stop t` is the value of the
user-controlled `stopRequest` flag at the `t`-th cancellation checkpoint. -/
structure RunEnv where
  oracle : Nat → Nat → Except (List Char) (List Char)
  stop : Nat → Bool

/-- Mutable state threaded through the chunk/attempt loops of
`handleProcessQueue`: the job's visible state, `finalTranslatedContent`,
whether a chat session is live, the checkpoint counter, the shared
inter-chunk delay setting, and the trace of attempts made so far. -/
structure LoopState where
  job : JobState
  finalContent : List Char
  session : Bool
  t : Nat
  chunkDelay : Nat
  trace : List AttemptRecord

/-- The job state written by the cancellation checkpoints (src/App.tsx
lines 185 and 199): back to queued, output cleared, no error, no
progress. -/
def revertedJob : JobState :=
  { status := .queued, translatedVtt := some [], error := none, progress := none }

/-- src/App.tsx line 241: the self-tuning raise of the shared inter-chunk
delay on a rate-limit failure. -/
def bumpChunkDelay (chunkDelay : Nat) : Nat := min (chunkDelay + 5) 30

/-- src/App.tsx line 222. -/
def chunkValidationMsg (expected received : Nat) : List Char :=
  "Chunk validation failed. Expected ".toList ++ natToStr expected ++
    " cues, but received ".toList ++ natToStr received ++ ".".toList

/-- The chunk-scope validation of one attempt (src/App.tsx lines 209-223):
a transport error propagates; otherwise the accumulated text is accepted
exactly when its cue count equals the chunk's cue count. -/
def attemptResult (chunk : List Char) (response : Except (List Char) (List Char)) :
    Except (List Char) (List Char) :=
  match response with
  | .error e => .error e
  | .ok acc =>
    if countCues chunk = countCues acc then .ok acc
    else .error (chunkValidationMsg (countCues chunk) (countCues acc))

/-- src/App.tsx line 233: the `ChunkExhausted`-style message, citing the
1-based chunk number, the total attempt count, and the last error. -/
def exhaustedMsg (chunkIdx attempts : Nat) (lastError : List Char) : List Char :=
  "Failed to translate chunk ".toList ++ natToStr (chunkIdx + 1) ++ " after ".toList ++
    natToStr attempts ++ " attempts. Last error: ".toList ++ lastError

/-- src/App.tsx line 259: the text a succeeded chunk contributes to the
job's running output. -/
def chunkAppendText (acc : List Char) : List Char := trimStr acc ++ nl2

/-- JavaScript `String.prototype.includes`: does `pat` occur as a
contiguous substring? -/
def containsSub (pat : List Char) : List Char → Bool
  | [] => pat.isPrefixOf []
  | c :: rest => pat.isPrefixOf (c :: rest) || containsSub pat rest

/-- Result of the attempt loop for one chunk. -/
inductive AttemptLoopOut
  | stoppedA (ls : LoopState)
  | failedA (msg : List Char) (ls : LoopState)
  | succeededA (acc : List Char) (ls : LoopState)

/-- The per-chunk attempt loop (src/App.tsx lines 196-254).  `attempt` is
the 1-based attempt number; `left` is the number of further attempts still
allowed (`MAX_CHUNK_RETRIES + 1 - attempt`), so the source's
`attempt > MAX_CHUNK_RETRIES` test is `left = 0`.  Each iteration first
polls the cancellation flag (revert and stop if set), then issues the
remote call: on a returned stream the session is kept and the streamed
text is accumulated into the job's visible partial output; chunk
validation then requires the exact cue count.  Any failure clears the
session; below the attempt cap it retries (raising the shared inter-chunk
delay on a rate-limit failure), at the cap it throws the exhausted
message. -/
def attemptLoop (env : RunEnv) (i : Nat) (chunk : List Char) :
    Nat → Nat → LoopState → AttemptLoopOut
  | attempt, left, ls =>
    if env.stop ls.t then
      .stoppedA { ls with t := ls.t + 1, job := revertedJob }
    else
      let ls1 := { ls with t := ls.t + 1 }
      let form := if ls1.session then PayloadForm.followUp else PayloadForm.first
      let ls2 := match env.oracle i attempt with
        | .ok acc => { ls1 with
                        session := true,
                        job := { ls1.job with translatedVtt := some (ls1.finalContent ++ acc) } }
        | .error _ => ls1
      match attemptResult chunk (env.oracle i attempt) with
      | .ok acc =>
        .succeededA acc { ls2 with trace := ls2.trace ++ [⟨i, attempt, form, false⟩] }
      | .error e =>
        let ls3 := { ls2 with session := false, trace := ls2.trace ++ [⟨i, attempt, form, true⟩] }
        match left with
        | 0 => .failedA (exhaustedMsg i attempt e) ls3
        | left' + 1 =>
          let ls4 := if containsSub "resource_exhausted".toList (e.map Char.toLower) then
                       { ls3 with chunkDelay := bumpChunkDelay ls3.chunkDelay }
                     else ls3
          attemptLoop env i chunk (attempt + 1) left' ls4

/-- Result of the chunk loop of one job. -/
inductive ChunkLoopOut
  | stoppedC (ls : LoopState)
  | failedC (msg : List Char) (ls : LoopState)
  | doneC (ls : LoopState)

/-- The chunk loop (src/App.tsx lines 182-268): for each chunk in order,
poll the cancellation flag (revert and stop if set), record progress, run
the attempt loop, and on success append the trimmed accepted text plus a
blank line to the running output. -/
def chunkLoop (env : RunEnv) (maxRetries total : Nat) :
    List (List Char) → Nat → LoopState → ChunkLoopOut
  | [], _, ls => .doneC ls
  | chunk :: rest, i, ls =>
    if env.stop ls.t then
      .stoppedC { ls with t := ls.t + 1, job := revertedJob }
    else
      let ls1 := { ls with t := ls.t + 1, job := { ls.job with progress := some (i + 1, total) } }
      match attemptLoop env i chunk 1 maxRetries ls1 with
      | .stoppedA ls2 => .stoppedC ls2
      | .failedA msg ls2 => .failedC msg ls2
      | .succeededA acc ls2 =>
        chunkLoop env maxRetries total rest (i + 1)
          { ls2 with finalContent := ls2.finalContent ++ chunkAppendText acc }

/-- src/App.tsx line 38. -/
def MAX_CHUNK_RETRIES : Nat := 3

/-- src/App.tsx line 37. -/
def CUES_PER_CHUNK : Int := 25

/-- The loop state at entry to a job's chunk loop: fresh processing job,
running output seeded with the header (if any) plus a blank line, no
session, and the ambient checkpoint counter and inter-chunk delay. -/
def initialLoopState (vttInput : List Char) (t0 chunkDelay0 : Nat) : LoopState :=
  { job := { status := .processing, translatedVtt := some [], error := none, progress := none },
    finalContent := if (splitVttIntoCues vttInput).1 = [] then []
                    else (splitVttIntoCues vttInput).1 ++ nl2,
    session := false, t := t0, chunkDelay := chunkDelay0, trace := [] }

/-- Outcome of processing one job. -/
structure JobResult where
  state : JobState
  wasStopped : Bool
  hasError : Bool
  t : Nat
  chunkDelay : Nat
  trace : List AttemptRecord

/-- Processing of a single job (the body of the per-job `try`/`catch` of
`handleProcessQueue`, src/App.tsx lines 165-287): reject an empty file,
split into header and cues, complete immediately on zero cues, otherwise
group into chunks and drive the chunk loop; a stop reverts the job, a
thrown error marks it `error` keeping any partial output, and otherwise
the whole document is validated before the job is completed. -/
def processJob (env : RunEnv) (maxRetries : Nat) (cuesPerChunk : Int)
    (vttInput : List Char) (t0 chunkDelay0 : Nat) : JobResult :=
  let st0 : JobState := { status := .processing, translatedVtt := some [], error := none, progress := none }
  if trimStr vttInput = [] then
    { state := { st0 with status := .error, error := some "VTT file is empty or could not be read.".toList },
      wasStopped := false, hasError := true, t := t0, chunkDelay := chunkDelay0, trace := [] }
  else
    let hc := splitVttIntoCues vttInput
    let vttHeader := hc.1
    let cues := hc.2
    if cues = [] then
      { state := { st0 with status := .completed, translatedVtt := some vttHeader },
        wasStopped := false, hasError := false, t := t0, chunkDelay := chunkDelay0, trace := [] }
    else
      match groupCuesIntoChunks cues cuesPerChunk with
      | .error e =>
        { state := { st0 with status := .error, error := some e },
          wasStopped := false, hasError := true, t := t0, chunkDelay := chunkDelay0, trace := [] }
      | .ok chunks =>
        match chunkLoop env maxRetries chunks.length chunks 0
            (initialLoopState vttInput t0 chunkDelay0) with
        | .stoppedC ls =>
          { state := ls.job, wasStopped := true, hasError := false,
            t := ls.t, chunkDelay := ls.chunkDelay, trace := ls.trace }
        | .failedC msg ls =>
          { state := { ls.job with status := .error, error := some msg, progress := none },
            wasStopped := false, hasError := true,
            t := ls.t, chunkDelay := ls.chunkDelay, trace := ls.trace }
        | .doneC ls =>
          match validateTranslation vttInput ls.finalContent with
          | .error msg =>
            { state := { ls.job with status := .error, error := some msg, progress := none },
              wasStopped := false, hasError := true,
              t := ls.t, chunkDelay := ls.chunkDelay, trace := ls.trace }
          | .ok _ =>
            { state := { ls.job with
                           status := .completed,
                           translatedVtt := some (trimStr ls.finalContent),
                           progress := none },
              wasStopped := false, hasError := false,
              t := ls.t, chunkDelay := ls.chunkDelay, trace := ls.trace }

/-- The state of a job that was never picked up. -/
def queued0 : JobState :=
  { status := .queued, translatedVtt := none, error := none, progress := none }

/-- The queue loop of `handleProcessQueue` (src/App.tsx lines 150-297) over
the queued jobs' source texts: poll the cancellation flag before each job,
process the job, and stop the whole run (leaving later jobs untouched in
`queued`) when the flag was observed or the job's own processing observed
it. -/
def processQueue (env : RunEnv) (maxRetries : Nat) (cuesPerChunk : Int) :
    List (List Char) → Nat → Nat → List JobState × Bool
  | [], _, _ => ([], false)
  | input :: rest, t, d =>
    if env.stop t then
      (queued0 :: rest.map (fun _ => queued0), true)
    else
      let r := processJob env maxRetries cuesPerChunk input (t + 1) d
      if r.wasStopped then
        (r.state :: rest.map (fun _ => queued0), true)
      else
        let pq := processQueue env maxRetries cuesPerChunk rest r.t r.chunkDelay
        (r.state :: pq.1, pq.2)

/-! ## Lemmas about cue counting and trimming -/

theorem isWsChar_ne_dash {c : Char} (h : isWsChar c = true) : c ≠ '-' := by
  rintro rfl; simp [isWsChar] at h

theorem isWsChar_ne_gt {c : Char} (h : isWsChar c = true) : c ≠ '>' := by
  rintro rfl; simp [isWsChar] at h

theorem countCues_cons_of_ne_dash {c : Char} (rest : List Char) (h : c ≠ '-') :
    countCues (c :: rest) = countCues rest := by
  rw [countCues.eq_2]
  intro r1 hc _
  exact h hc

theorem countCues_eq_zero_of_no_dash {t : List Char} (h : ∀ c ∈ t, c ≠ '-') :
    countCues t = 0 := by
  induction t with
  | nil => rfl
  | cons c rest ih =>
      rw [countCues_cons_of_ne_dash rest (h c (by simp))]
      exact ih fun x hx => h x (by simp [hx])

/-- Appending text containing no `-` and no `>` cannot change the cue
count: no arrow marker lies in or crosses into such a suffix. -/
theorem countCues_append_of_no_marker_chars {l t : List Char}
    (h : ∀ c ∈ t, c ≠ '-' ∧ c ≠ '>') : countCues (l ++ t) = countCues l := by
  induction l using countCues.induct with
  | case1 rest ih =>
      simpa [countCues] using ih
  | case2 c rest hne ih =>
      have hne2 : ∀ (r1 : List Char), c = '-' → rest ++ t = '-' :: '>' :: r1 → False := by
        intro r1 hc hrt
        match rest, hrt with
        | [], hrt =>
            simp at hrt
            exact (h '-' (by simp [hrt])).1 rfl
        | [x], hrt =>
            simp at hrt
            exact (h '>' (by simp [hrt.2])).2 rfl
        | x :: y :: rest', hrt =>
            simp at hrt
            exact hne rest' hc (by simp [hrt.1, hrt.2.1, hrt.2.2])
      rw [List.cons_append, countCues.eq_2 _ _ hne2, ih, countCues.eq_2 _ _ hne]
  | case3 =>
      simpa using countCues_eq_zero_of_no_dash fun c hc => (h c hc).1

/-- Trimming whitespace off the ends of a text does not change its cue
count (the arrow marker has no whitespace characters). -/
theorem countCues_trimStr (s : List Char) : countCues (trimStr s) = countCues s := by
  unfold trimStr
  have front : ∀ u : List Char, countCues (u.dropWhile isWsChar) = countCues u := by
    intro u
    induction u with
    | nil => rfl
    | cons c rest ih =>
        by_cases hc : isWsChar c
        · rw [List.dropWhile_cons_of_pos (by simpa using hc), ih,
            countCues_cons_of_ne_dash rest (isWsChar_ne_dash hc)]
        · rw [List.dropWhile_cons_of_neg (by simpa using hc)]
  have back : ∀ u : List Char,
      countCues ((u.reverse.dropWhile isWsChar).reverse) = countCues u := by
    intro u
    have hsplit : (u.reverse.takeWhile isWsChar) ++ (u.reverse.dropWhile isWsChar) = u.reverse :=
      List.takeWhile_append_dropWhile isWsChar u.reverse
    have hu : u = (u.reverse.dropWhile isWsChar).reverse ++ (u.reverse.takeWhile isWsChar).reverse := by
      conv_lhs => rw [← List.reverse_reverse u, ← hsplit]
      rw [List.reverse_append]
    conv_rhs => rw [hu]
    rw [countCues_append_of_no_marker_chars]
    intro c hc
    rw [List.mem_reverse] at hc
    have := List.mem_takeWhile_imp hc
    exact ⟨isWsChar_ne_dash this, isWsChar_ne_gt this⟩
  rw [back, front]

/-- A text with exactly `n` arrow markers, for boundary tests. -/
def arrowsRep (n : Nat) : List Char := (List.replicate n ['x', '-', '-', '>']).flatten

theorem countCues_arrowsRep (n : Nat) : countCues (arrowsRep n) = n := by
  induction n with
  | zero => rfl
  | succ m ih =>
      have : arrowsRep (m + 1) = 'x' :: '-' :: '-' :: '>' :: arrowsRep m := by
        simp [arrowsRep, List.replicate_succ]
      rw [this, countCues_cons_of_ne_dash _ (by decide), countCues, ih]

/-- Whole-document validation passes exactly on the asymmetric tolerance
band, and otherwise produces the mismatch error carrying both counts. -/
theorem validateTranslation_spec (O F : List Char) :
    (validateTranslation O F = Except.ok () ↔
      (Nat.ceil ((countCues O : ℚ) * (95 / 100)) ≤ countCues F ∧
       countCues F ≤ countCues O + 5)) ∧
    (validateTranslation O F ≠ Except.ok () →
      validateTranslation O F = Except.error (validationFailedMsg (countCues O) (countCues F))) := by
  have hT : countCues (trimStr F) = countCues F := countCues_trimStr F
  simp only [validateTranslation, hT]
  split_ifs with h
  · push_neg at h
    constructor
    · constructor
      · intro heq; exact absurd heq (by simp)
      · rintro ⟨h1, h2⟩
        rw [Nat.ceil_le] at h1
        rcases h with h | h
        · exact absurd h1 (by simpa [ge_iff_le] using h)
        · omega
    · intro _; rfl
  · push_neg at h
    constructor
    · constructor
      · intro _
        refine ⟨Nat.ceil_le.mpr ?_, h.2⟩
        simpa [ge_iff_le] using h.1
      · intro _; rfl
    · intro hne; exact absurd rfl hne

/-- C1: whole-document validation passes exactly when the translated unit
count is at least `ceil(0.95 × N)` and at most `N + 5` for original count
`N`, failing otherwise with an error carrying both counts; at `N = 100`,
translated counts 95 and 105 pass while 94 and 106 fail. -/
theorem C1_whole_document_validation_tolerance :
    (∀ originalVtt finalAiOutput : List Char,
      (validateTranslation originalVtt finalAiOutput = Except.ok () ↔
        (Nat.ceil ((countCues originalVtt : ℚ) * (95 / 100)) ≤ countCues finalAiOutput ∧
         countCues finalAiOutput ≤ countCues originalVtt + 5)) ∧
      (validateTranslation originalVtt finalAiOutput ≠ Except.ok () →
        validateTranslation originalVtt finalAiOutput =
          Except.error (validationFailedMsg (countCues originalVtt) (countCues finalAiOutput)))) ∧
    validateTranslation (arrowsRep 100) (arrowsRep 95) = Except.ok () ∧
    validateTranslation (arrowsRep 100) (arrowsRep 105) = Except.ok () ∧
    validateTranslation (arrowsRep 100) (arrowsRep 94) = Except.error (validationFailedMsg 100 94) ∧
    validateTranslation (arrowsRep 100) (arrowsRep 106) = Except.error (validationFailedMsg 100 106) := by
  refine ⟨validateTranslation_spec, ?_, ?_, ?_, ?_⟩
  · exact (validateTranslation_spec _ _).1.mpr
      (by rw [countCues_arrowsRep, countCues_arrowsRep]; norm_num)
  · exact (validateTranslation_spec _ _).1.mpr
      (by rw [countCues_arrowsRep, countCues_arrowsRep]; norm_num)
  · have hne : validateTranslation (arrowsRep 100) (arrowsRep 94) ≠ Except.ok () := by
      intro heq
      have := (validateTranslation_spec _ _).1.mp heq
      rw [countCues_arrowsRep, countCues_arrowsRep] at this
      norm_num at this
    have := (validateTranslation_spec (arrowsRep 100) (arrowsRep 94)).2 hne
    rwa [countCues_arrowsRep, countCues_arrowsRep] at this
  · have hne : validateTranslation (arrowsRep 100) (arrowsRep 106) ≠ Except.ok () := by
      intro heq
      have := (validateTranslation_spec _ _).1.mp heq
      rw [countCues_arrowsRep, countCues_arrowsRep] at this
      omega
    have := (validateTranslation_spec (arrowsRep 100) (arrowsRep 106)).2 hne
    rwa [countCues_arrowsRep, countCues_arrowsRep] at this

/-- Witness for C1 at a concrete input: one original cue, empty
translation, rejected with the error carrying both counts. -/
theorem C1_witness : validateTranslation ['x', '-', '-', '>'] [] = Except.error (validationFailedMsg 1 0) := by
  have hc := C1_whole_document_validation_tolerance.1 ['x', '-', '-', '>'] []
  have hne : validateTranslation ['x', '-', '-', '>'] [] ≠ Except.ok () := by
    intro heq
    have h1 := (hc.1.mp heq).1
    rw [show countCues ['x', '-', '-', '>'] = 1 from rfl,
      show countCues ([] : List Char) = 0 from rfl, Nat.ceil_le] at h1
    norm_num at h1
  simpa using hc.2 hne

/-- The chunks concatenate back to the input cue list. -/
theorem chunkLists_join (s : Nat) (l : List (List Char)) :
    (chunkLists s l).flatten = l := by
  induction l using chunkLists.induct s with
  | case1 => rw [chunkLists]; rfl
  | case2 c rest ih =>
      rw [chunkLists]
      simp only [List.flatten_cons, ih]
      simp [List.take_append_drop]

theorem chunkLists_length (s : Nat) (hs : 1 ≤ s) (l : List (List Char)) :
    (chunkLists s l).length = (l.length + s - 1) / s := by
  induction l using chunkLists.induct s with
  | case1 =>
      rw [chunkLists]
      simp
      rw [Nat.div_eq_of_lt (by omega)]
  | case2 c rest ih =>
      rw [chunkLists]
      simp only [List.length_cons, ih, List.length_drop]
      have hrhs : rest.length + 1 + s - 1 = rest.length + s := by omega
      rw [hrhs, Nat.add_div_right _ (by omega : 0 < s)]
      rcases le_or_lt (s - 1) rest.length with h | h
      · have e1 : rest.length - (s - 1) + s - 1 = rest.length := by omega
        rw [e1]
      · have e1 : rest.length - (s - 1) + s - 1 = s - 1 := by omega
        rw [e1, Nat.div_eq_of_lt (by omega), Nat.div_eq_of_lt (by omega)]

theorem chunkLists_le (s : Nat) (hs : 1 ≤ s) (l : List (List Char)) :
    ∀ ch ∈ chunkLists s l, ch.length ≤ s := by
  induction l using chunkLists.induct s with
  | case1 => rw [chunkLists]; simp
  | case2 c rest ih =>
      rw [chunkLists]
      intro ch hch
      rcases List.mem_cons.mp hch with rfl | hch
      · simp only [List.length_cons, List.length_take]
        omega
      · exact ih ch hch

theorem chunkLists_getElem (s : Nat) (hs : 1 ≤ s) (l : List (List Char)) :
    ∀ i, i < (chunkLists s l).length →
      (chunkLists s l)[i]? = some ((l.drop (i * s)).take s) := by
  induction l using chunkLists.induct s with
  | case1 => rw [chunkLists]; simp
  | case2 c rest ih =>
      intro i hi
      rw [chunkLists] at hi ⊢
      match i with
      | 0 =>
          simp only [List.getElem?_cons_zero, Nat.zero_mul, List.drop_zero]
          have hss : s = s - 1 + 1 := by omega
          rw [hss, List.take_succ_cons]
          norm_num
      | j + 1 =>
          simp only [List.getElem?_cons_succ]
          simp only [List.length_cons] at hi
          rw [ih j (by omega)]
          have h1 : (c :: rest).drop ((j + 1) * s) = rest.drop ((j + 1) * s - 1) := by
            have : (j + 1) * s = ((j + 1) * s - 1) + 1 := by
              have : 1 ≤ (j + 1) * s := Nat.one_le_iff_ne_zero.mpr (by positivity)
              omega
            rw [this, List.drop_succ_cons]
            norm_num
          have h2 : (j + 1) * s - 1 = (s - 1) + j * s := by
            have : (j + 1) * s = j * s + s := by ring
            omega
          rw [h1, h2, ← List.drop_drop]

/-- C3: for every cue list and chunk size `s > 0`, the grouper produces
exactly `ceil(n / s)` ordered chunks, chunk `i` being precisely the cues at
positions `[i*s, i*s + s)` joined by blank-line separators, each chunk
holding at most `s` cues, with no loss and no duplication. -/
theorem C3_chunk_grouping (cues : List (List Char)) (s : Int) (hs : 0 < s) :
    groupCuesIntoChunks cues s = Except.ok ((chunkLists s.toNat cues).map (joinSep nl2)) ∧
    (chunkLists s.toNat cues).length = (cues.length + s.toNat - 1) / s.toNat ∧
    (∀ i, i < (chunkLists s.toNat cues).length →
      (chunkLists s.toNat cues)[i]? = some ((cues.drop (i * s.toNat)).take s.toNat)) ∧
    (∀ ch ∈ chunkLists s.toNat cues, ch.length ≤ s.toNat) ∧
    (chunkLists s.toNat cues).flatten = cues := by
  have hs1 : 1 ≤ s.toNat := by omega
  refine ⟨?_, chunkLists_length _ hs1 _, chunkLists_getElem _ hs1 _,
    chunkLists_le _ hs1 _, chunkLists_join _ _⟩
  simp only [groupCuesIntoChunks, if_neg (by omega : ¬ s ≤ 0)]

/-- Witness for C3: three cues with chunk size 2. -/
theorem C3_witness :
    groupCuesIntoChunks ["a".toList, "b".toList, "c".toList] 2 =
      Except.ok ["a\n\nb".toList, "c".toList] ∧
    (chunkLists (2 : Int).toNat ["a".toList, "b".toList, "c".toList]).flatten =
      ["a".toList, "b".toList, "c".toList] := by
  have h := C3_chunk_grouping ["a".toList, "b".toList, "c".toList] 2 (by norm_num)
  refine ⟨?_, h.2.2.2.2⟩
  rw [h.1]
  simp [chunkLists, joinSep, nl2]

/-- C9: a chunk size of 0 or a negative number makes the grouper fail with
the invalid-argument error and produce no chunks. -/
theorem C9_nonpositive_chunk_size (cues : List (List Char)) (s : Int) (hs : s ≤ 0) :
    groupCuesIntoChunks cues s = Except.error "chunkSize must be a positive number.".toList := by
  simp only [groupCuesIntoChunks, if_pos hs]

/-- Witness for C9 at sizes 0 and -3. -/
theorem C9_witness :
    groupCuesIntoChunks ["a".toList] 0 = Except.error "chunkSize must be a positive number.".toList ∧
    groupCuesIntoChunks ["a".toList] (-3) = Except.error "chunkSize must be a positive number.".toList := by
  exact ⟨C9_nonpositive_chunk_size _ 0 (by norm_num), C9_nonpositive_chunk_size _ (-3) (by norm_num)⟩

def attemptLoopState : AttemptLoopOut → LoopState
  | .stoppedA ls => ls
  | .failedA _ ls => ls
  | .succeededA _ ls => ls

def chunkLoopState : ChunkLoopOut → LoopState
  | .stoppedC ls => ls
  | .failedC _ ls => ls
  | .doneC ls => ls

theorem bumpChunkDelay_le (d : Nat) : bumpChunkDelay d ≤ 30 := by
  simp [bumpChunkDelay]

/-- The attempt record produced by a call made with the given session
state. -/
def attemptRec (i attempt : Nat) (session : Bool) (failed : Bool) : AttemptRecord :=
  ⟨i, attempt, if session then .followUp else .first, failed⟩

/-- The failure continuation of the attempt loop: throw the exhausted
message at the cap, otherwise retry after (possibly) raising the shared
delay. -/
def failCont (env : RunEnv) (i : Nat) (chunk : List Char) (attempt left : Nat)
    (e : List Char) (ls3 : LoopState) : AttemptLoopOut :=
  match left with
  | 0 => .failedA (exhaustedMsg i attempt e) ls3
  | left' + 1 =>
      let ls4 := if containsSub "resource_exhausted".toList (e.map Char.toLower) then
                   { ls3 with chunkDelay := bumpChunkDelay ls3.chunkDelay }
                 else ls3
      attemptLoop env i chunk (attempt + 1) left' ls4

theorem attemptLoop_eq_stop {env : RunEnv} {i : Nat} {chunk : List Char}
    {attempt left : Nat} {ls : LoopState} (h : env.stop ls.t = true) :
    attemptLoop env i chunk attempt left ls =
      .stoppedA { ls with t := ls.t + 1, job := revertedJob } := by
  rw [attemptLoop]
  simp [h]

theorem attemptLoop_eq_ok {env : RunEnv} {i : Nat} {chunk : List Char}
    {attempt left : Nat} {ls : LoopState} {acc : List Char}
    (hstop : env.stop ls.t = false) (hor : env.oracle i attempt = .ok acc)
    (hcnt : countCues chunk = countCues acc) :
    attemptLoop env i chunk attempt left ls =
      .succeededA acc { ls with
        t := ls.t + 1,
        session := true,
        job := { ls.job with translatedVtt := some (ls.finalContent ++ acc) },
        trace := ls.trace ++ [attemptRec i attempt ls.session false] } := by
  rw [attemptLoop]
  simp [hstop, hor, attemptResult, hcnt, attemptRec]

theorem attemptLoop_eq_mismatch {env : RunEnv} {i : Nat} {chunk : List Char}
    {attempt left : Nat} {ls : LoopState} {acc : List Char}
    (hstop : env.stop ls.t = false) (hor : env.oracle i attempt = .ok acc)
    (hcnt : countCues chunk ≠ countCues acc) :
    attemptLoop env i chunk attempt left ls =
      failCont env i chunk attempt left
        (chunkValidationMsg (countCues chunk) (countCues acc))
        { ls with
          t := ls.t + 1,
          session := false,
          job := { ls.job with translatedVtt := some (ls.finalContent ++ acc) },
          trace := ls.trace ++ [attemptRec i attempt ls.session true] } := by
  rw [attemptLoop]
  simp only [hstop, hor, attemptResult, if_neg hcnt, Bool.false_eq_true, if_false, attemptRec,
    failCont]

theorem attemptLoop_eq_transport {env : RunEnv} {i : Nat} {chunk : List Char}
    {attempt left : Nat} {ls : LoopState} {e : List Char}
    (hstop : env.stop ls.t = false) (hor : env.oracle i attempt = .error e) :
    attemptLoop env i chunk attempt left ls =
      failCont env i chunk attempt left e
        { ls with
          t := ls.t + 1,
          session := false,
          trace := ls.trace ++ [attemptRec i attempt ls.session true] } := by
  rw [attemptLoop]
  simp only [hstop, hor, attemptResult, attemptRec, failCont, Bool.false_eq_true, if_false]

theorem attemptLoop_chunkDelay_le (env : RunEnv) (i : Nat) (chunk : List Char) :
    ∀ (left attempt : Nat) (ls : LoopState), ls.chunkDelay ≤ 30 →
      (attemptLoopState (attemptLoop env i chunk attempt left ls)).chunkDelay ≤ 30 := by
  intro left
  induction left with
  | zero =>
      intro attempt ls h
      cases hstop : env.stop ls.t
      · rcases ho : env.oracle i attempt with e | acc
        · rw [attemptLoop_eq_transport hstop ho]
          simpa [failCont, attemptLoopState] using h
        · by_cases hcnt : countCues chunk = countCues acc
          · rw [attemptLoop_eq_ok hstop ho hcnt]
            simpa [attemptLoopState] using h
          · rw [attemptLoop_eq_mismatch hstop ho hcnt]
            simpa [failCont, attemptLoopState] using h
      · rw [attemptLoop_eq_stop hstop]
        simpa [attemptLoopState] using h
  | succ left' ih =>
      intro attempt ls h
      cases hstop : env.stop ls.t
      · rcases ho : env.oracle i attempt with e | acc
        · rw [attemptLoop_eq_transport hstop ho]
          rw [failCont]
          split
          · exact ih _ _ (by simpa using bumpChunkDelay_le _)
          · exact ih _ _ (by simpa using h)
        · by_cases hcnt : countCues chunk = countCues acc
          · rw [attemptLoop_eq_ok hstop ho hcnt]
            simpa [attemptLoopState] using h
          · rw [attemptLoop_eq_mismatch hstop ho hcnt]
            rw [failCont]
            split
            · exact ih _ _ (by simpa using bumpChunkDelay_le _)
            · exact ih _ _ (by simpa using h)
      · rw [attemptLoop_eq_stop hstop]
        simpa [attemptLoopState] using h

theorem chunkLoop_chunkDelay_le (env : RunEnv) (maxRetries total : Nat) :
    ∀ (chunks : List (List Char)) (i : Nat) (ls : LoopState), ls.chunkDelay ≤ 30 →
      (chunkLoopState (chunkLoop env maxRetries total chunks i ls)).chunkDelay ≤ 30 := by
  intro chunks
  induction chunks with
  | nil =>
      intro i ls h
      rw [chunkLoop]
      simpa [chunkLoopState] using h
  | cons chunk rest ih =>
      intro i ls h
      rw [chunkLoop]
      cases hstop : env.stop ls.t
      · simp only [Bool.false_eq_true, if_false]
        have hal := attemptLoop_chunkDelay_le env i chunk maxRetries 1
          { ls with t := ls.t + 1, job := { ls.job with progress := some (i + 1, total) } }
          (by simpa using h)
        rcases hres : attemptLoop env i chunk 1 maxRetries
            { ls with t := ls.t + 1, job := { ls.job with progress := some (i + 1, total) } } with
          ls2 | ⟨msg, ls2⟩ | ⟨acc, ls2⟩
        · rw [hres] at hal
          simpa [chunkLoopState, attemptLoopState] using hal
        · rw [hres] at hal
          simpa [chunkLoopState, attemptLoopState] using hal
        · rw [hres] at hal
          simp only [attemptLoopState] at hal
          exact ih _ _ (by simpa using hal)
      · simpa [chunkLoopState] using h

theorem chunkLoop_delay_le_of_eq {env : RunEnv} {maxRetries total : Nat}
    {chunks : List (List Char)} {i : Nat} {ls : LoopState} {out : ChunkLoopOut}
    (heq : chunkLoop env maxRetries total chunks i ls = out) (h : ls.chunkDelay ≤ 30) :
    (chunkLoopState out).chunkDelay ≤ 30 :=
  heq ▸ chunkLoop_chunkDelay_le env maxRetries total chunks i ls h

theorem processJob_chunkDelay_le (env : RunEnv) (maxRetries : Nat) (cuesPerChunk : Int)
    (vttInput : List Char) (t0 d0 : Nat) (h : d0 ≤ 30) :
    (processJob env maxRetries cuesPerChunk vttInput t0 d0).chunkDelay ≤ 30 := by
  dsimp only [processJob]
  repeat' split
  all_goals try exact h
  all_goals
    first
      | (rename_i heq
         simpa [chunkLoopState] using chunkLoop_delay_le_of_eq heq h)
      | (rename_i heq a b hv
         simpa [chunkLoopState] using chunkLoop_delay_le_of_eq heq h)

/-- C10: every rate-limit bump sets the shared inter-chunk delay to
`min(previous + 5, 30)`, so after any positive number of bumps the delay is
at most 30, and a whole job run started at a delay of at most 30 never
drives it above 30. -/
theorem C10_delay_bump_capped :
    (∀ d : Nat, bumpChunkDelay d = min (d + 5) 30) ∧
    (∀ d n : Nat, bumpChunkDelay^[n + 1] d ≤ 30) ∧
    (∀ (env : RunEnv) (maxRetries : Nat) (cuesPerChunk : Int) (vttInput : List Char)
      (t0 d0 : Nat), d0 ≤ 30 →
        (processJob env maxRetries cuesPerChunk vttInput t0 d0).chunkDelay ≤ 30) := by
  refine ⟨fun d => rfl, ?_, fun env mr cpc input t0 d0 h =>
    processJob_chunkDelay_le env mr cpc input t0 d0 h⟩
  intro d n
  rw [Function.iterate_succ_apply']
  exact bumpChunkDelay_le _

def sampleDoc : List Char := "WEBVTT\n\n1\n00:00 --> 00:01\nhi\n\n2\n00:02 --> 00:03\nyo".toList

def rateLimitEnv : RunEnv :=
  { oracle := fun _ _ => .error "got RESOURCE_EXHAUSTED: quota".toList,
    stop := fun _ => false }

/-- Witness for C10: three bumps from the default 12, and a full job run
against a permanently rate-limited endpoint. -/
theorem C10_witness :
    bumpChunkDelay^[3] 12 ≤ 30 ∧
    (12 : Nat) ≤ 30 ∧
    (processJob rateLimitEnv MAX_CHUNK_RETRIES CUES_PER_CHUNK sampleDoc 0 12).chunkDelay ≤ 30 :=
  ⟨C10_delay_bump_capped.2.1 12 2, by norm_num,
    C10_delay_bump_capped.2.2 rateLimitEnv MAX_CHUNK_RETRIES CUES_PER_CHUNK sampleDoc 0 12
      (by norm_num)⟩

/-- `containsSub` decides the substring (infix) relation. -/
theorem containsSub_iff (pat s : List Char) : containsSub pat s = true ↔ pat <:+: s := by
  induction s with
  | nil =>
      rw [containsSub]
      rw [List.isPrefixOf_iff_prefix]
      constructor
      · intro h; exact h.isInfix
      · intro h
        have := List.eq_nil_of_infix_nil h
        subst this
        exact List.nil_prefix
  | cons c rest ih =>
      rw [containsSub, Bool.or_eq_true, List.isPrefixOf_iff_prefix, ih, List.infix_cons_iff]

deriving instance DecidableEq for Except

/-- Dropping leading whitespace cannot remove an occurrence of a pattern
whose first character is not whitespace. -/
theorem infix_dropWhile_of_head_not {p s : List Char}
    (hp : ∀ hd, p.head? = some hd → isWsChar hd = false)
    (h : p <:+: s) : p <:+: s.dropWhile isWsChar := by
  induction s with
  | nil => simpa using h
  | cons c rest ih =>
      rcases List.infix_cons_iff.mp h with hpre | hinf
      · by_cases hc : isWsChar c
        · match p, hpre with
          | [], _ => exact List.nil_infix
          | hd :: p', hpre =>
              have hed : hd = c := (List.cons_prefix_cons.mp hpre).1
              exact absurd (hp hd rfl) (by simp [hed, hc])
        · rw [List.dropWhile_cons_of_neg (by simpa using hc)]
          exact hpre.isInfix
      · by_cases hc : isWsChar c
        · rw [List.dropWhile_cons_of_pos (by simpa using hc)]
          exact ih hinf
        · rw [List.dropWhile_cons_of_neg (by simpa using hc)]
          exact List.infix_cons_iff.mpr (Or.inr hinf)

/-- Trimming cannot remove an occurrence of a pattern whose first and last
characters are not whitespace. -/
theorem infix_trimStr {p s : List Char}
    (hhead : ∀ hd, p.head? = some hd → isWsChar hd = false)
    (hlast : ∀ hd, p.reverse.head? = some hd → isWsChar hd = false)
    (h : p <:+: s) : p <:+: trimStr s := by
  unfold trimStr
  have h1 : p <:+: s.dropWhile isWsChar := infix_dropWhile_of_head_not hhead h
  have h2 : p.reverse <:+: (s.dropWhile isWsChar).reverse := List.reverse_infix.mpr h1
  have h3 : p.reverse <:+: ((s.dropWhile isWsChar).reverse).dropWhile isWsChar :=
    infix_dropWhile_of_head_not hlast h2
  simpa using List.reverse_infix.mpr h3

/-- A chunk with two cues, for the C5 counterexample. -/
def chunkTwoCues : List Char := "a --> b\n\nc --> d".toList

/-- An accumulated model response framed by the start/end markers, with a
stray cue after the end marker. -/
def accWithMarkers : List Char :=
  "=== TRANSLATED VTT ===\nx --> y\n=== END OF TRANSLATION ===\nz --> w".toList

/-- C5 counterexample: the per-chunk acceptance step (src/App.tsx lines
218-227 and 259) takes this marker-framed accumulated response as-is: it
is accepted because its raw cue count (2, counting a cue hidden behind the
end marker) matches the chunk, and the text appended to the running output
still contains both framing markers, while the (unused) extraction helper
would have produced the single-cue stripped text. -/
theorem C5_counterexample :
    attemptResult chunkTwoCues (.ok accWithMarkers) = .ok accWithMarkers ∧
    containsSub startMarker (chunkAppendText accWithMarkers) = true ∧
    containsSub endMarker (chunkAppendText accWithMarkers) = true ∧
    extractTranslatedVttContent accWithMarkers = "x --> y".toList ∧
    countCues (extractTranslatedVttContent accWithMarkers) ≠ countCues accWithMarkers := by
  decide

/-- C5 (amended): the chunk pipeline does not strip the framing markers:
per-chunk validation counts the raw accumulated text and acceptance appends
its trimmed form, so a marker present in the accumulated response is still
present in the appended output; stripping exists only in the unused helper
`extractTranslatedVttContent`. -/
theorem C5_markers_not_stripped :
    (∀ chunk acc : List Char,
      attemptResult chunk (.ok acc) =
        (if countCues chunk = countCues acc then .ok acc
         else .error (chunkValidationMsg (countCues chunk) (countCues acc)))) ∧
    (∀ acc : List Char, chunkAppendText acc = trimStr acc ++ nl2) ∧
    (∀ acc : List Char, containsSub startMarker acc = true →
      containsSub startMarker (chunkAppendText acc) = true) := by
  refine ⟨fun chunk acc => rfl, fun acc => rfl, fun acc h => ?_⟩
  rw [containsSub_iff] at h ⊢
  rw [chunkAppendText]
  have h1 : startMarker <:+: trimStr acc :=
    infix_trimStr (by decide) (by decide) h
  exact h1.trans ⟨[], nl2, by simp⟩

/-- Witness for C5 (amended) at the concrete marker-framed response. -/
theorem C5_witness :
    containsSub startMarker accWithMarkers = true ∧
    containsSub startMarker (chunkAppendText accWithMarkers) = true :=
  ⟨by decide, C5_markers_not_stripped.2.2 accWithMarkers (by decide)⟩

/-- If every attempt in the window fails, the attempt loop ends by
throwing the exhausted message built from the final attempt's error. -/
theorem attemptLoop_exhausts (env : RunEnv) (i : Nat) (chunk : List Char)
    (hstop : ∀ tt, env.stop tt = false) :
    ∀ (left attempt : Nat) (ls : LoopState),
      (∀ a, attempt ≤ a → a ≤ attempt + left →
        ∃ e, attemptResult chunk (env.oracle i a) = .error e) →
      ∃ e ls', attemptLoop env i chunk attempt left ls =
          .failedA (exhaustedMsg i (attempt + left) e) ls' ∧
        attemptResult chunk (env.oracle i (attempt + left)) = .error e := by
  intro left
  induction left with
  | zero =>
      intro attempt ls hfail
      obtain ⟨e, he⟩ := hfail attempt le_rfl (by omega)
      rcases ho : env.oracle i attempt with e0 | acc
      · rw [attemptLoop_eq_transport (hstop _) ho]
        simp only [failCont, Nat.add_zero]
        exact ⟨e0, _, rfl, by simp [attemptResult, ho]⟩
      · have hcnt : countCues chunk ≠ countCues acc := by
          intro hc
          rw [ho] at he
          simp [attemptResult, hc] at he
        rw [attemptLoop_eq_mismatch (hstop _) ho hcnt]
        simp only [failCont, Nat.add_zero]
        exact ⟨_, _, rfl, by simp [attemptResult, ho, hcnt]⟩
  | succ left' ih =>
      intro attempt ls hfail
      have harith : attempt + 1 + left' = attempt + (left' + 1) := by omega
      have hnext : ∀ a, attempt + 1 ≤ a → a ≤ attempt + 1 + left' →
          ∃ e, attemptResult chunk (env.oracle i a) = .error e := by
        intro a h1 h2
        exact hfail a (by omega) (by omega)
      obtain ⟨e1, he1⟩ := hfail attempt le_rfl (by omega)
      rcases ho : env.oracle i attempt with e0 | acc
      · rw [attemptLoop_eq_transport (hstop _) ho]
        rw [failCont]
        obtain ⟨e, ls', heq, hres⟩ := ih (attempt + 1) _ hnext
        rw [harith] at hres heq
        exact ⟨e, ls', heq, hres⟩
      · have hcnt : countCues chunk ≠ countCues acc := by
          intro hc
          rw [ho] at he1
          simp [attemptResult, hc] at he1
        rw [attemptLoop_eq_mismatch (hstop _) ho hcnt]
        rw [failCont]
        obtain ⟨e, ls', heq, hres⟩ := ih (attempt + 1) _ hnext
        rw [harith] at hres heq
        exact ⟨e, ls', heq, hres⟩

/-- If some attempt in the window has an accepted outcome, the attempt
loop ends in success. -/
theorem attemptLoop_succeeds (env : RunEnv) (i : Nat) (chunk : List Char)
    (hstop : ∀ tt, env.stop tt = false) :
    ∀ (left attempt : Nat) (ls : LoopState),
      (∃ a, attempt ≤ a ∧ a ≤ attempt + left ∧
        ∃ acc, attemptResult chunk (env.oracle i a) = .ok acc) →
      ∃ acc ls', attemptLoop env i chunk attempt left ls = .succeededA acc ls' := by
  intro left
  induction left with
  | zero =>
      intro attempt ls hex
      obtain ⟨a, ha1, ha2, acc, hok⟩ := hex
      have ha : a = attempt := by omega
      subst ha
      rcases ho : env.oracle i a with e0 | acc'
      · rw [ho] at hok; simp [attemptResult] at hok
      · have hcnt : countCues chunk = countCues acc' := by
          by_contra hcnt
          rw [ho] at hok
          simp [attemptResult, hcnt] at hok
        exact ⟨acc', _, attemptLoop_eq_ok (hstop _) ho hcnt⟩
  | succ left' ih =>
      intro attempt ls hex
      obtain ⟨a, ha1, ha2, acc, hok⟩ := hex
      rcases ho : env.oracle i attempt with e0 | acc'
      · have hane : a ≠ attempt := by
          intro h; subst h
          rw [ho] at hok; simp [attemptResult] at hok
        rw [attemptLoop_eq_transport (hstop _) ho, failCont]
        exact ih (attempt + 1) _ ⟨a, by omega, by omega, acc, hok⟩
      · by_cases hcnt : countCues chunk = countCues acc'
        · exact ⟨acc', _, attemptLoop_eq_ok (hstop _) ho hcnt⟩
        · have hane : a ≠ attempt := by
            intro h; subst h
            rw [ho] at hok; simp [attemptResult, hcnt] at hok
          rw [attemptLoop_eq_mismatch (hstop _) ho hcnt, failCont]
          exact ih (attempt + 1) _ ⟨a, by omega, by omega, acc, hok⟩

/-- If every chunk has an accepted attempt within the window, the chunk
loop completes. -/
theorem chunkLoop_done (env : RunEnv) (maxRetries total : Nat)
    (hstop : ∀ tt, env.stop tt = false) :
    ∀ (chunks : List (List Char)) (i : Nat) (ls : LoopState),
      (∀ j, j < chunks.length → ∃ a, 1 ≤ a ∧ a ≤ maxRetries + 1 ∧
        ∃ acc, attemptResult (chunks.getD j []) (env.oracle (i + j) a) = .ok acc) →
      ∃ lsOut, chunkLoop env maxRetries total chunks i ls = .doneC lsOut := by
  intro chunks
  induction chunks with
  | nil =>
      intro i ls _
      exact ⟨ls, by rw [chunkLoop]⟩
  | cons chunk rest ih =>
      intro i ls hsucc
      rw [chunkLoop]
      simp only [hstop ls.t, Bool.false_eq_true, if_false]
      have h0 := hsucc 0 (by simp)
      simp only [List.getD_cons_zero, Nat.add_zero] at h0
      obtain ⟨a, ha1, ha2, acc, hok⟩ := h0
      obtain ⟨acc', ls2, heq⟩ := attemptLoop_succeeds env i chunk hstop maxRetries 1 _
        ⟨a, by omega, by omega, acc, hok⟩
      rw [heq]
      apply ih (i + 1)
      intro j hj
      have := hsucc (j + 1) (by simpa using Nat.succ_lt_succ hj)
      simp only [List.getD_cons_succ] at this
      have harith : i + (j + 1) = i + 1 + j := by omega
      rwa [harith] at this

/-- A chunk whose attempts all fail fails the chunk loop with the
exhausted message. -/
theorem chunkLoop_failed_head (env : RunEnv) (maxRetries total : Nat)
    (ch : List Char) (rest : List (List Char)) (i : Nat) (ls : LoopState)
    (hstop : ∀ tt, env.stop tt = false)
    (hfail : ∀ a, 1 ≤ a → a ≤ maxRetries + 1 →
      ∃ e, attemptResult ch (env.oracle i a) = .error e) :
    ∃ e ls', chunkLoop env maxRetries total (ch :: rest) i ls =
        .failedC (exhaustedMsg i (maxRetries + 1) e) ls' ∧
      attemptResult ch (env.oracle i (maxRetries + 1)) = .error e := by
  rw [chunkLoop]
  simp only [hstop ls.t, Bool.false_eq_true, if_false]
  obtain ⟨e, ls', heq, hres⟩ := attemptLoop_exhausts env i ch hstop maxRetries 1 _
    (by intro a h1 h2; exact hfail a h1 (by omega))
  have harith : 1 + maxRetries = maxRetries + 1 := by omega
  rw [harith] at heq hres
  rw [heq]
  exact ⟨e, ls', rfl, hres⟩

theorem attemptLoop_jobError_none (env : RunEnv) (i : Nat) (chunk : List Char) :
    ∀ (left attempt : Nat) (ls : LoopState), ls.job.error = none →
      (attemptLoopState (attemptLoop env i chunk attempt left ls)).job.error = none := by
  intro left
  induction left with
  | zero =>
      intro attempt ls h
      cases hstop : env.stop ls.t
      · rcases ho : env.oracle i attempt with e | acc
        · rw [attemptLoop_eq_transport hstop ho]
          simpa [failCont, attemptLoopState] using h
        · by_cases hcnt : countCues chunk = countCues acc
          · rw [attemptLoop_eq_ok hstop ho hcnt]
            simpa [attemptLoopState] using h
          · rw [attemptLoop_eq_mismatch hstop ho hcnt]
            simpa [failCont, attemptLoopState] using h
      · rw [attemptLoop_eq_stop hstop]
        simp [attemptLoopState, revertedJob]
  | succ left' ih =>
      intro attempt ls h
      cases hstop : env.stop ls.t
      · rcases ho : env.oracle i attempt with e | acc
        · rw [attemptLoop_eq_transport hstop ho]
          rw [failCont]
          split
          · exact ih _ _ (by simpa using h)
          · exact ih _ _ (by simpa using h)
        · by_cases hcnt : countCues chunk = countCues acc
          · rw [attemptLoop_eq_ok hstop ho hcnt]
            simpa [attemptLoopState] using h
          · rw [attemptLoop_eq_mismatch hstop ho hcnt]
            rw [failCont]
            split
            · exact ih _ _ (by simpa using h)
            · exact ih _ _ (by simpa using h)
      · rw [attemptLoop_eq_stop hstop]
        simp [attemptLoopState, revertedJob]

theorem chunkLoop_jobError_none (env : RunEnv) (maxRetries total : Nat) :
    ∀ (chunks : List (List Char)) (i : Nat) (ls : LoopState), ls.job.error = none →
      (chunkLoopState (chunkLoop env maxRetries total chunks i ls)).job.error = none := by
  intro chunks
  induction chunks with
  | nil =>
      intro i ls h
      rw [chunkLoop]
      simpa [chunkLoopState] using h
  | cons chunk rest ih =>
      intro i ls h
      rw [chunkLoop]
      cases hstop : env.stop ls.t
      · simp only [Bool.false_eq_true, if_false]
        have hal := attemptLoop_jobError_none env i chunk maxRetries 1
          { ls with t := ls.t + 1, job := { ls.job with progress := some (i + 1, total) } }
          (by simpa using h)
        rcases hres : attemptLoop env i chunk 1 maxRetries
            { ls with t := ls.t + 1, job := { ls.job with progress := some (i + 1, total) } } with
          ls2 | ⟨msg, ls2⟩ | ⟨acc, ls2⟩
        · rw [hres] at hal
          simpa [chunkLoopState, attemptLoopState] using hal
        · rw [hres] at hal
          simpa [chunkLoopState, attemptLoopState] using hal
        · rw [hres] at hal
          simp only [attemptLoopState] at hal
          exact ih _ _ (by simpa using hal)
      · simp [chunkLoopState, revertedJob]

theorem processJob_of_failedC {env : RunEnv} {maxRetries : Nat} {cuesPerChunk : Int}
    {input : List Char} {t0 d0 : Nat} {chunks : List (List Char)} {msg : List Char}
    {lsx : LoopState}
    (h1 : trimStr input ≠ [])
    (h2 : (splitVttIntoCues input).2 ≠ [])
    (h3 : groupCuesIntoChunks (splitVttIntoCues input).2 cuesPerChunk = .ok chunks)
    (h4 : chunkLoop env maxRetries chunks.length chunks 0 (initialLoopState input t0 d0) =
      .failedC msg lsx) :
    (processJob env maxRetries cuesPerChunk input t0 d0).state.status = .error ∧
    (processJob env maxRetries cuesPerChunk input t0 d0).state.error = some msg := by
  dsimp only [processJob]
  rw [if_neg h1, if_neg h2, h3]
  dsimp only
  rw [h4]
  exact ⟨rfl, rfl⟩

theorem processJob_of_doneC {env : RunEnv} {maxRetries : Nat} {cuesPerChunk : Int}
    {input : List Char} {t0 d0 : Nat} {chunks : List (List Char)} {lsx : LoopState}
    (h1 : trimStr input ≠ [])
    (h2 : (splitVttIntoCues input).2 ≠ [])
    (h3 : groupCuesIntoChunks (splitVttIntoCues input).2 cuesPerChunk = .ok chunks)
    (h4 : chunkLoop env maxRetries chunks.length chunks 0 (initialLoopState input t0 d0) =
      .doneC lsx)
    (h5 : validateTranslation input lsx.finalContent = .ok ()) :
    (processJob env maxRetries cuesPerChunk input t0 d0).state.status = .completed ∧
    (processJob env maxRetries cuesPerChunk input t0 d0).state.error = none := by
  have herr : lsx.job.error = none := by
    have := chunkLoop_jobError_none env maxRetries chunks.length chunks 0
      (initialLoopState input t0 d0) rfl
    rw [h4] at this
    simpa [chunkLoopState] using this
  dsimp only [processJob]
  rw [if_neg h1, if_neg h2, h3]
  dsimp only
  rw [h4]
  dsimp only
  rw [h5]
  exact ⟨rfl, herr⟩

/-- C4: with `MAX_CHUNK_RETRIES + 1 = 4` total attempts, a chunk whose
every attempt fails (transport error or cue-count mismatch) ends the
attempt loop — and the job — in error with the message citing the chunk
index, the attempt count 4, and the last underlying error; while a run
whose chunks each succeed at some attempt within the cap completes the
chunk loop, and the job finishes `completed` with no error once
whole-document validation passes. -/
theorem C4_retry_exhaustion_and_recovery :
    MAX_CHUNK_RETRIES + 1 = 4 ∧
    (∀ (env : RunEnv) (i : Nat) (chunk : List Char) (ls : LoopState),
      (∀ tt, env.stop tt = false) →
      (∀ a, 1 ≤ a → a ≤ 4 → ∃ e, attemptResult chunk (env.oracle i a) = .error e) →
      ∃ e ls', attemptLoop env i chunk 1 MAX_CHUNK_RETRIES ls =
          .failedA (exhaustedMsg i 4 e) ls' ∧
        attemptResult chunk (env.oracle i 4) = .error e) ∧
    (∀ (env : RunEnv) (input : List Char) (t0 d0 : Nat) (ch : List Char)
      (rest : List (List Char)),
      (∀ tt, env.stop tt = false) →
      trimStr input ≠ [] →
      groupCuesIntoChunks (splitVttIntoCues input).2 CUES_PER_CHUNK = .ok (ch :: rest) →
      (∀ a, 1 ≤ a → a ≤ 4 → ∃ e, attemptResult ch (env.oracle 0 a) = .error e) →
      ∃ e, attemptResult ch (env.oracle 0 4) = .error e ∧
        (processJob env MAX_CHUNK_RETRIES CUES_PER_CHUNK input t0 d0).state.status = .error ∧
        (processJob env MAX_CHUNK_RETRIES CUES_PER_CHUNK input t0 d0).state.error =
          some (exhaustedMsg 0 4 e)) ∧
    (∀ (env : RunEnv) (input : List Char) (t0 d0 : Nat) (chunks : List (List Char)),
      (∀ tt, env.stop tt = false) →
      trimStr input ≠ [] →
      groupCuesIntoChunks (splitVttIntoCues input).2 CUES_PER_CHUNK = .ok chunks →
      chunks ≠ [] →
      (∀ j, j < chunks.length → ∃ a, 1 ≤ a ∧ a ≤ 4 ∧
        ∃ acc, attemptResult (chunks.getD j []) (env.oracle j a) = .ok acc) →
      ∃ lsOut, chunkLoop env MAX_CHUNK_RETRIES chunks.length chunks 0
          (initialLoopState input t0 d0) = .doneC lsOut ∧
        (validateTranslation input lsOut.finalContent = .ok () →
          (processJob env MAX_CHUNK_RETRIES CUES_PER_CHUNK input t0 d0).state.status =
            .completed ∧
          (processJob env MAX_CHUNK_RETRIES CUES_PER_CHUNK input t0 d0).state.error = none)) := by
  refine ⟨rfl, ?_, ?_, ?_⟩
  · intro env i chunk ls hstop hfail
    have h := attemptLoop_exhausts env i chunk hstop MAX_CHUNK_RETRIES 1 ls
      (fun a h1 h2 => hfail a h1 (by simp only [MAX_CHUNK_RETRIES] at h2 ⊢; omega))
    simpa using h
  · intro env input t0 d0 ch rest hstop hne hgrp hfail
    have hcues : (splitVttIntoCues input).2 ≠ [] := by
      intro hc
      rw [hc] at hgrp
      rw [groupCuesIntoChunks] at hgrp
      simp only [CUES_PER_CHUNK] at hgrp
      rw [if_neg (by norm_num)] at hgrp
      rw [chunkLists] at hgrp
      simp at hgrp
    obtain ⟨e, ls', heq, hres⟩ := chunkLoop_failed_head env MAX_CHUNK_RETRIES
      (ch :: rest).length ch rest 0 (initialLoopState input t0 d0) hstop
      (fun a h1 h2 => hfail a h1 (by simp only [MAX_CHUNK_RETRIES] at h2 ⊢; omega))
    have hglue := processJob_of_failedC hne hcues hgrp heq
    exact ⟨e, hres, hglue.1, hglue.2⟩
  · intro env input t0 d0 chunks hstop hne hgrp hchne hsucc
    have hcues : (splitVttIntoCues input).2 ≠ [] := by
      intro hc
      rw [hc] at hgrp
      rw [groupCuesIntoChunks] at hgrp
      simp only [CUES_PER_CHUNK] at hgrp
      rw [if_neg (by norm_num)] at hgrp
      rw [chunkLists] at hgrp
      simp at hgrp
      exact hchne hgrp
    obtain ⟨lsOut, heq⟩ := chunkLoop_done env MAX_CHUNK_RETRIES chunks.length hstop chunks 0
      (initialLoopState input t0 d0)
      (by
        intro j hj
        obtain ⟨a, h1, h2, acc, hok⟩ := hsucc j hj
        exact ⟨a, h1, by simp only [MAX_CHUNK_RETRIES]; omega, acc, by simpa using hok⟩)
    refine ⟨lsOut, heq, fun hval => ?_⟩
    exact processJob_of_doneC hne hcues hgrp heq hval

theorem chunkLoop_eq_stop {env : RunEnv} {maxRetries total : Nat} {chunk : List Char}
    {rest : List (List Char)} {i : Nat} {ls : LoopState} (h : env.stop ls.t = true) :
    chunkLoop env maxRetries total (chunk :: rest) i ls =
      .stoppedC { ls with t := ls.t + 1, job := revertedJob } := by
  rw [chunkLoop]
  simp [h]

theorem attemptLoop_stoppedA_job (env : RunEnv) (i : Nat) (chunk : List Char) :
    ∀ (left attempt : Nat) (ls ls' : LoopState),
      attemptLoop env i chunk attempt left ls = .stoppedA ls' → ls'.job = revertedJob := by
  intro left
  induction left with
  | zero =>
      intro attempt ls ls' h
      cases hstop : env.stop ls.t
      · rcases ho : env.oracle i attempt with e | acc
        · rw [attemptLoop_eq_transport hstop ho] at h
          simp [failCont] at h
        · by_cases hcnt : countCues chunk = countCues acc
          · rw [attemptLoop_eq_ok hstop ho hcnt] at h
            simp at h
          · rw [attemptLoop_eq_mismatch hstop ho hcnt] at h
            simp [failCont] at h
      · rw [attemptLoop_eq_stop hstop] at h
        cases h
        rfl
  | succ left' ih =>
      intro attempt ls ls' h
      cases hstop : env.stop ls.t
      · rcases ho : env.oracle i attempt with e | acc
        · rw [attemptLoop_eq_transport hstop ho, failCont] at h
          exact ih _ _ _ h
        · by_cases hcnt : countCues chunk = countCues acc
          · rw [attemptLoop_eq_ok hstop ho hcnt] at h
            simp at h
          · rw [attemptLoop_eq_mismatch hstop ho hcnt, failCont] at h
            exact ih _ _ _ h
      · rw [attemptLoop_eq_stop hstop] at h
        cases h
        rfl

theorem chunkLoop_stoppedC_job (env : RunEnv) (maxRetries total : Nat) :
    ∀ (chunks : List (List Char)) (i : Nat) (ls ls' : LoopState),
      chunkLoop env maxRetries total chunks i ls = .stoppedC ls' → ls'.job = revertedJob := by
  intro chunks
  induction chunks with
  | nil =>
      intro i ls ls' h
      rw [chunkLoop] at h
      simp at h
  | cons chunk rest ih =>
      intro i ls ls' h
      rw [chunkLoop] at h
      cases hstop : env.stop ls.t
      · simp only [hstop, Bool.false_eq_true, if_false] at h
        rcases hres : attemptLoop env i chunk 1 maxRetries
            { ls with t := ls.t + 1, job := { ls.job with progress := some (i + 1, total) } } with
          ls2 | ⟨msg, ls2⟩ | ⟨acc, ls2⟩
        · rw [hres] at h
          simp at h
          rw [← h]
          exact attemptLoop_stoppedA_job env i chunk _ _ _ _ hres
        · rw [hres] at h
          simp at h
        · rw [hres] at h
          simp only at h
          exact ih _ _ _ h
      · simp only [hstop, if_true] at h
        cases h
        rfl

theorem processJob_stopped_state (env : RunEnv) (maxRetries : Nat) (cuesPerChunk : Int)
    (input : List Char) (t0 d0 : Nat)
    (h : (processJob env maxRetries cuesPerChunk input t0 d0).wasStopped = true) :
    (processJob env maxRetries cuesPerChunk input t0 d0).state = revertedJob := by
  revert h
  dsimp only [processJob]
  repeat' split
  all_goals intro h
  all_goals simp_all
  all_goals rename_i heq
  · exact chunkLoop_stoppedC_job env maxRetries _ _ 0 _ _ heq

/-- Adjacent-attempt discipline of a trace: any attempt right after a
failed one was sent as a full first message. -/
def TraceAdj (tr : List AttemptRecord) : Prop :=
  ∀ (k : Nat) (r r' : AttemptRecord), tr[k]? = some r → tr[k + 1]? = some r' →
    r.failed = true → r'.form = PayloadForm.first

/-- Link between an attempt trace and the live session: when the last
recorded attempt failed, the session has been invalidated. -/
def LastMatches (tr : List AttemptRecord) (session : Bool) : Prop :=
  ∀ r : AttemptRecord, tr.getLast? = some r → r.failed = true → session = false

theorem traceAdj_nil : TraceAdj [] := by
  intro k r r' hk
  simp at hk

theorem lastMatches_nil (session : Bool) : LastMatches [] session := by
  intro r hr
  simp at hr

theorem traceAdj_append {tr : List AttemptRecord} {session : Bool}
    (hadj : TraceAdj tr) (hlast : LastMatches tr session)
    (i attempt : Nat) (failed : Bool) :
    TraceAdj (tr ++ [attemptRec i attempt session failed]) := by
  intro k r r' hk hk1 hf
  rcases lt_trichotomy (k + 1) tr.length with h | h | h
  · rw [List.getElem?_append_left (by omega)] at hk
    rw [List.getElem?_append_left h] at hk1
    exact hadj k r r' hk hk1 hf
  · rw [List.getElem?_append_left (by omega)] at hk
    rw [List.getElem?_append_right (by omega)] at hk1
    rw [h] at hk1
    simp at hk1
    have hlastr : tr.getLast? = some r := by
      rw [List.getLast?_eq_getElem?]
      have : tr.length - 1 = k := by omega
      rw [this, hk]
    have hsess := hlast r hlastr hf
    rw [← hk1, attemptRec, hsess]
    simp
  · exfalso
    rw [List.getElem?_append_right (by omega)] at hk1
    have : k + 1 - tr.length ≥ 1 := by omega
    rcases hkk : k + 1 - tr.length with _ | m
    · omega
    · rw [hkk] at hk1
      simp at hk1

theorem lastMatches_append_failed {tr : List AttemptRecord} (session : Bool)
    (i attempt : Nat) :
    LastMatches (tr ++ [attemptRec i attempt session true]) false := by
  intro r hr _
  rfl

theorem lastMatches_append_ok {tr : List AttemptRecord} (session : Bool)
    (i attempt : Nat) (newSession : Bool) :
    LastMatches (tr ++ [attemptRec i attempt session false]) newSession := by
  intro r hr hf
  rw [List.getLast?_concat] at hr
  cases hr
  simp [attemptRec] at hf

theorem attemptLoop_trace_inv (env : RunEnv) (i : Nat) (chunk : List Char) :
    ∀ (left attempt : Nat) (ls : LoopState),
      TraceAdj ls.trace → LastMatches ls.trace ls.session →
      TraceAdj (attemptLoopState (attemptLoop env i chunk attempt left ls)).trace ∧
      LastMatches (attemptLoopState (attemptLoop env i chunk attempt left ls)).trace
        (attemptLoopState (attemptLoop env i chunk attempt left ls)).session := by
  intro left
  induction left with
  | zero =>
      intro attempt ls hadj hlast
      cases hstop : env.stop ls.t
      · rcases ho : env.oracle i attempt with e | acc
        · rw [attemptLoop_eq_transport hstop ho]
          simp only [failCont, attemptLoopState]
          exact ⟨traceAdj_append hadj hlast i attempt true,
            lastMatches_append_failed ls.session i attempt⟩
        · by_cases hcnt : countCues chunk = countCues acc
          · rw [attemptLoop_eq_ok hstop ho hcnt]
            simp only [attemptLoopState]
            exact ⟨traceAdj_append hadj hlast i attempt false,
              lastMatches_append_ok ls.session i attempt true⟩
          · rw [attemptLoop_eq_mismatch hstop ho hcnt]
            simp only [failCont, attemptLoopState]
            exact ⟨traceAdj_append hadj hlast i attempt true,
              lastMatches_append_failed ls.session i attempt⟩
      · rw [attemptLoop_eq_stop hstop]
        simp only [attemptLoopState]
        exact ⟨hadj, hlast⟩
  | succ left' ih =>
      intro attempt ls hadj hlast
      cases hstop : env.stop ls.t
      · rcases ho : env.oracle i attempt with e | acc
        · rw [attemptLoop_eq_transport hstop ho]
          rw [failCont]
          split
          · exact ih _ _ (traceAdj_append hadj hlast i attempt true)
              (lastMatches_append_failed ls.session i attempt)
          · exact ih _ _ (traceAdj_append hadj hlast i attempt true)
              (lastMatches_append_failed ls.session i attempt)
        · by_cases hcnt : countCues chunk = countCues acc
          · rw [attemptLoop_eq_ok hstop ho hcnt]
            simp only [attemptLoopState]
            exact ⟨traceAdj_append hadj hlast i attempt false,
              lastMatches_append_ok ls.session i attempt true⟩
          · rw [attemptLoop_eq_mismatch hstop ho hcnt]
            rw [failCont]
            split
            · exact ih _ _ (traceAdj_append hadj hlast i attempt true)
                (lastMatches_append_failed ls.session i attempt)
            · exact ih _ _ (traceAdj_append hadj hlast i attempt true)
                (lastMatches_append_failed ls.session i attempt)
      · rw [attemptLoop_eq_stop hstop]
        simp only [attemptLoopState]
        exact ⟨hadj, hlast⟩

theorem chunkLoop_trace_inv (env : RunEnv) (maxRetries total : Nat) :
    ∀ (chunks : List (List Char)) (i : Nat) (ls : LoopState),
      TraceAdj ls.trace → LastMatches ls.trace ls.session →
      TraceAdj (chunkLoopState (chunkLoop env maxRetries total chunks i ls)).trace := by
  intro chunks
  induction chunks with
  | nil =>
      intro i ls hadj _
      rw [chunkLoop]
      simpa [chunkLoopState] using hadj
  | cons chunk rest ih =>
      intro i ls hadj hlast
      rw [chunkLoop]
      cases hstop : env.stop ls.t
      · simp only [Bool.false_eq_true, if_false]
        have hal := attemptLoop_trace_inv env i chunk maxRetries 1
          { ls with t := ls.t + 1, job := { ls.job with progress := some (i + 1, total) } }
          (by simpa using hadj) (by simpa using hlast)
        rcases hres : attemptLoop env i chunk 1 maxRetries
            { ls with t := ls.t + 1, job := { ls.job with progress := some (i + 1, total) } } with
          ls2 | ⟨msg, ls2⟩ | ⟨acc, ls2⟩
        · rw [hres] at hal
          simpa [chunkLoopState, attemptLoopState] using hal.1
        · rw [hres] at hal
          simpa [chunkLoopState, attemptLoopState] using hal.1
        · rw [hres] at hal
          simp only [attemptLoopState] at hal
          exact ih _ _ (by simpa using hal.1) (by simpa using hal.2)
      · simpa [chunkLoopState] using hadj

theorem chunkLoop_trace_adj_of_eq {env : RunEnv} {maxRetries total : Nat}
    {chunks : List (List Char)} {i : Nat} {ls : LoopState} {out : ChunkLoopOut}
    (heq : chunkLoop env maxRetries total chunks i ls = out)
    (h1 : TraceAdj ls.trace) (h2 : LastMatches ls.trace ls.session) :
    TraceAdj (chunkLoopState out).trace :=
  heq ▸ chunkLoop_trace_inv env maxRetries total chunks i ls h1 h2

theorem processJob_trace_adj (env : RunEnv) (maxRetries : Nat) (cuesPerChunk : Int)
    (input : List Char) (t0 d0 : Nat) :
    TraceAdj (processJob env maxRetries cuesPerChunk input t0 d0).trace := by
  dsimp only [processJob]
  repeat' split
  all_goals try exact traceAdj_nil
  all_goals
    first
      | (rename_i heq
         exact chunkLoop_trace_adj_of_eq heq traceAdj_nil (lastMatches_nil _))
      | (rename_i heq a b hv
         exact chunkLoop_trace_adj_of_eq heq traceAdj_nil (lastMatches_nil _))

/-- C6: a cancellation checkpoint that observes the stop flag — before a
chunk or inside the attempt loop — reverts the job to `queued` with
cleared output, no error and no progress (never `error`); a stopped job's
final state is exactly that reverted state, and the queue stops there,
leaving the remaining jobs untouched in `queued`. -/
theorem C6_cancellation_reverts_to_queued :
    revertedJob = { status := JobStatus.queued, translatedVtt := some [],
                    error := none, progress := none } ∧
    (∀ (env : RunEnv) (i : Nat) (chunk : List Char) (attempt left : Nat) (ls : LoopState),
      env.stop ls.t = true →
      attemptLoop env i chunk attempt left ls =
        .stoppedA { ls with t := ls.t + 1, job := revertedJob }) ∧
    (∀ (env : RunEnv) (maxRetries total : Nat) (chunk : List Char)
      (rest : List (List Char)) (i : Nat) (ls : LoopState),
      env.stop ls.t = true →
      chunkLoop env maxRetries total (chunk :: rest) i ls =
        .stoppedC { ls with t := ls.t + 1, job := revertedJob }) ∧
    (∀ (env : RunEnv) (maxRetries : Nat) (cuesPerChunk : Int) (input : List Char)
      (t0 d0 : Nat),
      (processJob env maxRetries cuesPerChunk input t0 d0).wasStopped = true →
      (processJob env maxRetries cuesPerChunk input t0 d0).state = revertedJob) ∧
    (∀ (env : RunEnv) (maxRetries : Nat) (cuesPerChunk : Int) (input : List Char)
      (rest : List (List Char)) (t0 d0 : Nat),
      env.stop t0 = false →
      (processJob env maxRetries cuesPerChunk input (t0 + 1) d0).wasStopped = true →
      processQueue env maxRetries cuesPerChunk (input :: rest) t0 d0 =
        ((processJob env maxRetries cuesPerChunk input (t0 + 1) d0).state ::
          rest.map (fun _ => queued0), true)) := by
  refine ⟨rfl, fun env i chunk attempt left ls h => attemptLoop_eq_stop h,
    fun env mr total chunk rest i ls h => chunkLoop_eq_stop h,
    fun env mr cpc input t0 d0 h => processJob_stopped_state env mr cpc input t0 d0 h,
    ?_⟩
  intro env mr cpc input rest t0 d0 h1 h2
  rw [processQueue]
  simp only [h1, Bool.false_eq_true, if_false]
  simp only [h2, if_true]

/-- C7: in any job run, an attempt recorded immediately after a failed
attempt is sent as a full first message — the failure invalidated the
session, so a lean follow-up payload is never sent right after a
failure. -/
theorem C7_failed_attempt_forces_first_message_next :
    ∀ (env : RunEnv) (maxRetries : Nat) (cuesPerChunk : Int) (input : List Char)
      (t0 d0 : Nat) (k : Nat) (r r' : AttemptRecord),
      (processJob env maxRetries cuesPerChunk input t0 d0).trace[k]? = some r →
      (processJob env maxRetries cuesPerChunk input t0 d0).trace[k + 1]? = some r' →
      r.failed = true → r'.form = PayloadForm.first :=
  fun env mr cpc input t0 d0 k r r' h1 h2 hf =>
    processJob_trace_adj env mr cpc input t0 d0 k r r' h1 h2 hf

/-- An endpoint that fails the first attempt of each chunk and then
returns a two-cue response. -/
def failThenOkEnv : RunEnv :=
  { oracle := fun _ a => if a = 1 then .error "boom".toList
      else .ok "1\n00:00 --> 00:01\nxin chao\n\n2\n00:02 --> 00:03\nchao ban".toList,
    stop := fun _ => false }

theorem failThenOkEnv_trace :
    (processJob failThenOkEnv MAX_CHUNK_RETRIES CUES_PER_CHUNK sampleDoc 0 5).trace =
      [attemptRec 0 1 false true, attemptRec 0 2 false false] := by
  simp [processJob, sampleDoc, splitVttIntoCues, normalizeNl, linesOf, findMarkerIdx,
    containsArrow, walkBack, trimStr, isWsChar, joinSep, splitDNL, splitDNLAux, dropNls,
    groupCuesIntoChunks, chunkLists, nl2, initialLoopState, chunkLoop, attemptLoop,
    attemptResult, countCues, failThenOkEnv, MAX_CHUNK_RETRIES, CUES_PER_CHUNK,
    attemptRec, containsSub, bumpChunkDelay, chunkAppendText]
  split <;> rfl

/-- An endpoint whose every call fails with the same transport error. -/
def allFailEnv : RunEnv :=
  { oracle := fun _ _ => .error "transport down".toList, stop := fun _ => false }

/-- An environment whose stop flag turns on from the second checkpoint. -/
def stopAfterFirstEnv : RunEnv :=
  { oracle := fun _ _ => .error "x".toList, stop := fun t => decide (1 ≤ t) }

theorem sampleDoc_group :
    groupCuesIntoChunks (splitVttIntoCues sampleDoc).2 CUES_PER_CHUNK =
      .ok ["1\n00:00 --> 00:01\nhi\n\n2\n00:02 --> 00:03\nyo".toList] := by
  simp [sampleDoc, splitVttIntoCues, normalizeNl, linesOf, findMarkerIdx, containsArrow,
    walkBack, trimStr, isWsChar, joinSep, splitDNL, splitDNLAux, dropNls,
    groupCuesIntoChunks, chunkLists, nl2, CUES_PER_CHUNK]

/-- Witness for C4: a permanently failing endpoint exhausts the retries
of chunk 0 and the job errors with the exhausted message. -/
theorem C4_witness :
    (processJob allFailEnv MAX_CHUNK_RETRIES CUES_PER_CHUNK sampleDoc 0 5).state.status =
      JobStatus.error ∧
    (processJob allFailEnv MAX_CHUNK_RETRIES CUES_PER_CHUNK sampleDoc 0 5).state.error =
      some (exhaustedMsg 0 4 "transport down".toList) := by
  obtain ⟨e, hres, h1, h2⟩ := C4_retry_exhaustion_and_recovery.2.2.1 allFailEnv sampleDoc 0 5
    "1\n00:00 --> 00:01\nhi\n\n2\n00:02 --> 00:03\nyo".toList [] (fun _ => rfl) (by decide)
    sampleDoc_group (fun a _ _ => ⟨"transport down".toList, rfl⟩)
  have hrw : attemptResult "1\n00:00 --> 00:01\nhi\n\n2\n00:02 --> 00:03\nyo".toList
      (allFailEnv.oracle 0 4) = Except.error "transport down".toList := rfl
  rw [hrw] at hres
  have he : e = "transport down".toList := (Except.error.inj hres).symm
  rw [he] at h2
  exact ⟨h1, h2⟩

theorem stopEnv_wasStopped :
    (processJob stopAfterFirstEnv MAX_CHUNK_RETRIES CUES_PER_CHUNK sampleDoc 1 5).wasStopped =
      true := by
  simp [processJob, sampleDoc, splitVttIntoCues, normalizeNl, linesOf, findMarkerIdx,
    containsArrow, walkBack, trimStr, isWsChar, joinSep, splitDNL, splitDNLAux, dropNls,
    groupCuesIntoChunks, chunkLists, nl2, initialLoopState, chunkLoop, attemptLoop,
    attemptResult, countCues, stopAfterFirstEnv, MAX_CHUNK_RETRIES, CUES_PER_CHUNK]

/-- Witness for C6: a stop flag raised after the first checkpoint reverts
the job and stops the queue before the second job. -/
theorem C6_witness :
    (processJob stopAfterFirstEnv MAX_CHUNK_RETRIES CUES_PER_CHUNK sampleDoc 1 5).state =
      revertedJob ∧
    processQueue stopAfterFirstEnv MAX_CHUNK_RETRIES CUES_PER_CHUNK [sampleDoc, sampleDoc] 0 5 =
      ((processJob stopAfterFirstEnv MAX_CHUNK_RETRIES CUES_PER_CHUNK sampleDoc 1 5).state ::
        [queued0], true) := by
  refine ⟨C6_cancellation_reverts_to_queued.2.2.2.1 stopAfterFirstEnv MAX_CHUNK_RETRIES
      CUES_PER_CHUNK sampleDoc 1 5 stopEnv_wasStopped, ?_⟩
  have h := C6_cancellation_reverts_to_queued.2.2.2.2 stopAfterFirstEnv MAX_CHUNK_RETRIES
    CUES_PER_CHUNK sampleDoc [sampleDoc] 0 5 rfl stopEnv_wasStopped
  simpa using h

/-- Witness for C7: a failed first attempt is followed by a
first-message attempt. -/
theorem C7_witness :
    ∃ r r' : AttemptRecord,
      (processJob failThenOkEnv MAX_CHUNK_RETRIES CUES_PER_CHUNK sampleDoc 0 5).trace[0]? =
        some r ∧
      (processJob failThenOkEnv MAX_CHUNK_RETRIES CUES_PER_CHUNK sampleDoc 0 5).trace[1]? =
        some r' ∧
      r.failed = true ∧ r'.form = PayloadForm.first := by
  refine ⟨attemptRec 0 1 false true, attemptRec 0 2 false false,
    by rw [failThenOkEnv_trace]; rfl, by rw [failThenOkEnv_trace]; rfl, rfl, ?_⟩
  exact C7_failed_attempt_forces_first_message_next failThenOkEnv MAX_CHUNK_RETRIES
    CUES_PER_CHUNK sampleDoc 0 5 0 _ _ (by rw [failThenOkEnv_trace]; rfl)
    (by rw [failThenOkEnv_trace]; rfl) rfl

/-- `containsArrow` decides whether the arrow marker occurs as a
substring. -/
theorem containsArrow_iff_marker_sub (s : List Char) :
    containsArrow s = true ↔ ['-', '-', '>'] <:+: s := by
  induction s using containsArrow.induct with
  | case1 rest =>
      rw [containsArrow]
      simp only [true_iff]
      exact ⟨[], rest, rfl⟩
  | case2 c rest hne ih =>
      rw [containsArrow.eq_2 _ _ hne, ih, List.infix_cons_iff]
      constructor
      · exact Or.inr
      · rintro (hpre | hinf)
        · exfalso
          obtain ⟨t, ht⟩ := hpre
          simp at ht
          exact hne t ht.1.symm ht.2.symm
        · exact hinf
  | case3 =>
      simp only [containsArrow]
      constructor
      · intro h; cases h
      · intro h
        have := List.eq_nil_of_infix_nil h
        simp at this

/-- Splitting on newlines always yields at least one line. -/
theorem linesOf_ne_nil (s : List Char) : linesOf s ≠ [] := by
  induction s with
  | nil => simp [linesOf]
  | cons c rest ih =>
      rw [linesOf]
      split
      · simp
      · split
        · simp
        · simp

/-- Joining the lines of a text with newlines reproduces the text. -/
theorem joinSep_linesOf (s : List Char) : joinSep ['\n'] (linesOf s) = s := by
  induction s with
  | nil => rfl
  | cons c rest ih =>
      rw [linesOf]
      split
      · rename_i hc
        subst hc
        rcases hl : linesOf rest with _ | ⟨l, ls⟩
        · exact absurd hl (linesOf_ne_nil rest)
        · rw [hl] at ih
          rw [joinSep]
          simpa using ih
      · rename_i hc
        rcases hl : linesOf rest with _ | ⟨l, ls⟩
        · exact absurd hl (linesOf_ne_nil rest)
        · rw [hl] at ih
          rcases ls with _ | ⟨m, ms⟩
          · rw [joinSep] at ih ⊢
            rw [ih]
          · rw [joinSep] at ih ⊢
            simpa using congrArg (List.cons c) ih

/-- Every member of a joined list occurs as a substring of the join. -/
theorem mem_joinSep_infix (sep : List Char) (L : List (List Char)) :
    ∀ l ∈ L, l <:+: joinSep sep L := by
  induction L with
  | nil => simp
  | cons x t ih =>
      intro l hl
      rcases t with _ | ⟨y, ts⟩
      · simp at hl
        subst hl
        exact List.infix_refl _
      · rw [joinSep]
      
        rcases List.mem_cons.mp hl with rfl | hl
        · exact ((List.prefix_append l (sep ++ joinSep sep (y :: ts))).isInfix).trans
            (by simp)
        · exact (ih l hl).trans ⟨x ++ sep, [], by simp⟩

/-- Line-ending normalization is the identity on carriage-return-free
text. -/
theorem normalizeNl_id {s : List Char} (h : '\r' ∉ s) : normalizeNl s = s := by
  induction s using normalizeNl.induct with
  | case1 rest ih => simp at h
  | case2 c rest hne ih =>
      simp only [List.mem_cons, not_or] at h
      rw [normalizeNl.eq_2 _ _ hne, ih h.2]
  | case3 => rfl

/-- Normalization preserves a head character other than newline or
carriage return. -/
theorem normalizeNl_head_of_ne {c : Char} (hc : c ≠ '\n') (hcr : c ≠ '\r') :
    ∀ {u v : List Char}, normalizeNl u = c :: v → ∃ w, u = c :: w ∧ normalizeNl w = v := by
  intro u v h
  rcases u with _ | ⟨c', r⟩
  · simp [normalizeNl] at h
  · by_cases hpair : c' = '\r' ∧ ∃ r2, r = '\n' :: r2
    · obtain ⟨hx, r2, hr⟩ := hpair
      subst hx
      subst hr
      rw [show normalizeNl ('\r' :: '\n' :: r2) = '\n' :: normalizeNl r2 from rfl] at h
      injection h with h1 _
      exact absurd h1.symm hc
    · have hne : ∀ r1, c' = '\r' → r = '\n' :: r1 → False := fun r1 hx hr => hpair ⟨hx, r1, hr⟩
      rw [normalizeNl.eq_2 _ _ hne] at h
      injection h with h1 h2
      subst h1
      exact ⟨r, rfl, h2⟩

/-- A normalized text starting with a dash/greater pair comes from a text
with the same head. -/
theorem normalizeNl_head_dash_gt {u v : List Char}
    (h : normalizeNl u = '-' :: '>' :: v) : ∃ w, u = '-' :: '>' :: w := by
  obtain ⟨w1, hw1, hn1⟩ := normalizeNl_head_of_ne (by decide) (by decide) h
  obtain ⟨w2, hw2, _⟩ := normalizeNl_head_of_ne (by decide) (by decide) hn1
  exact ⟨w2, by rw [hw1, hw2]⟩

/-- Normalizing line endings neither creates nor destroys arrow-marker
occurrences: it only deletes carriage returns that sit right before a
newline, and no marker involves those characters. -/
theorem containsArrow_normalizeNl (s : List Char) :
    containsArrow (normalizeNl s) = containsArrow s := by
  have e2 : ∀ x : List Char, containsArrow ('\n' :: x) = containsArrow x := fun x => rfl
  have e4 : ∀ x : List Char, containsArrow ('\r' :: x) = containsArrow x := fun x => rfl
  have e3 : ∀ x : List Char, normalizeNl ('\n' :: x) = '\n' :: normalizeNl x := fun x => rfl
  induction s using containsArrow.induct with
  | case1 rest =>
      have e1 : normalizeNl ('-' :: '-' :: '>' :: rest) = '-' :: '-' :: '>' :: normalizeNl rest :=
        rfl
      rw [e1, containsArrow, containsArrow]
  | case2 c rest hne ih =>
      by_cases hcr : c = '\r' ∧ ∃ r2, rest = '\n' :: r2
      · obtain ⟨hc, r2, hr⟩ := hcr
        subst hc
        subst hr
        have e1 : normalizeNl ('\r' :: '\n' :: r2) = '\n' :: normalizeNl r2 := rfl
        simp only [e1, e3, e2, e4] at ih ⊢
        exact ih
      · have hne2 : ∀ (r1 : List Char), c = '\r' → rest = '\n' :: r1 → False := by
          intro r1 hc hr
          exact hcr ⟨hc, r1, hr⟩
        rw [normalizeNl.eq_2 _ _ hne2]
        rw [containsArrow.eq_2 _ _ hne, ← ih]
        rw [containsArrow.eq_2]
        intro r1 hc hr
        obtain ⟨w, hw⟩ := normalizeNl_head_dash_gt hr
        exact hne w hc hw
  | case3 => rfl

/-- The marker scan finds nothing when no line contains the marker. -/
theorem findMarkerIdx_eq_none (L : List (List Char))
    (h : ∀ l ∈ L, containsArrow l = false) : findMarkerIdx L = none := by
  induction L with
  | nil => rfl
  | cons l ls ih =>
      rw [findMarkerIdx]
      rw [h l (by simp)]
      simp only [Bool.false_eq_true, if_false]
      rw [ih fun x hx => h x (by simp [hx])]
      rfl

/-- With no arrow marker anywhere in the input, the splitter returns the
whole trimmed input as header and no cues. -/
theorem split_of_no_marker (s : List Char) (h : containsArrow s = false) :
    splitVttIntoCues s = (trimStr s, []) := by
  have hnorm : containsArrow (normalizeNl s) = false := by rw [containsArrow_normalizeNl, h]
  have hlines : ∀ l ∈ linesOf (normalizeNl s), containsArrow l = false := by
    intro l hl
    by_contra hc
    rw [Bool.not_eq_false] at hc
    have hinf : ['-', '-', '>'] <:+: normalizeNl s := by
      have h1 := (containsArrow_iff_marker_sub l).mp hc
      have h2 := mem_joinSep_infix ['\n'] (linesOf (normalizeNl s)) l hl
      rw [joinSep_linesOf] at h2
      exact h1.trans h2
    rw [(containsArrow_iff_marker_sub _).mpr hinf] at hnorm
    cases hnorm
  dsimp only [splitVttIntoCues]
  rw [findMarkerIdx_eq_none _ hlines]

/-- C8: the splitter's marker scan runs on the input with line endings
normalized to newline — which preserves exactly the marker occurrences of
the raw input — and when no marker occurs anywhere, the whole trimmed
input is returned as the header with an empty cue list (no error is
possible: the function is total). -/
theorem C8_no_marker_trimmed_header :
    (∀ s : List Char, containsArrow (normalizeNl s) = containsArrow s) ∧
    (∀ s : List Char, containsArrow s = false → splitVttIntoCues s = (trimStr s, [])) :=
  ⟨containsArrow_normalizeNl, split_of_no_marker⟩

/-- Witness for C8 on a concrete marker-free input. -/
theorem C8_witness :
    containsArrow "no timestamps in here".toList = false ∧
    splitVttIntoCues "no timestamps in here".toList =
      (trimStr "no timestamps in here".toList, []) :=
  ⟨by decide, C8_no_marker_trimmed_header.2 _ (by decide)⟩

/-- The spec's recombination (§8): the header, when present, followed by a
blank line, then the cues joined by blank-line separators (src/App.tsx
lines 173 and 259 build the output in exactly this shape). -/
def recombine (header : List Char) (cues : List (List Char)) : List Char :=
  (if header = [] then [] else header ++ nl2) ++ joinSep nl2 cues

/-- Well-formedness of line endings: every carriage return is immediately
followed by a line feed (plain LF and CRLF documents qualify). -/
def noStrayCR : List Char → Bool
  | '\r' :: '\n' :: rest => noStrayCR rest
  | '\r' :: _ => false
  | _ :: rest => noStrayCR rest
  | [] => true

example : noStrayCR "a\r\nb\r\nc".toList = true := by decide
example : noStrayCR "a\rb".toList = false := by decide

theorem dropWhile_append_of_all {p : Char → Bool} {a : List Char} (b : List Char)
    (h : ∀ c ∈ a, p c = true) : (a ++ b).dropWhile p = b.dropWhile p := by
  induction a with
  | nil => rfl
  | cons c r ih =>
      rw [List.cons_append, List.dropWhile_cons_of_pos (h c (by simp))]
      exact ih fun x hx => h x (by simp [hx])

theorem dropWhile_append_of_ne_nil {p : Char → Bool} {a : List Char} (b : List Char)
    (h : a.dropWhile p ≠ []) : (a ++ b).dropWhile p = a.dropWhile p ++ b := by
  induction a with
  | nil => simp at h
  | cons c r ih =>
      by_cases hc : p c
      · rw [List.dropWhile_cons_of_pos hc] at h
        rw [List.cons_append, List.dropWhile_cons_of_pos hc, List.dropWhile_cons_of_pos hc]
        exact ih h
      · rw [List.cons_append, List.dropWhile_cons_of_neg hc, List.dropWhile_cons_of_neg hc]
        simp

theorem dropWhile_self_idem (p : Char → Bool) (l : List Char) :
    (l.dropWhile p).dropWhile p = l.dropWhile p := by
  induction l with
  | nil => rfl
  | cons c r ih =>
      by_cases hc : p c
      · rw [List.dropWhile_cons_of_pos hc, ih]
      · rw [List.dropWhile_cons_of_neg hc, List.dropWhile_cons_of_neg hc]

theorem trimStr_eq_nil_iff {l : List Char} :
    trimStr l = [] ↔ ∀ c ∈ l, isWsChar c = true := by
  constructor
  · intro h c hc
    unfold trimStr at h
    rcases hu : l.dropWhile isWsChar with _ | ⟨x, u⟩
    · rw [List.dropWhile_eq_nil_iff] at hu
      rcases hsplit : l.takeWhile isWsChar ++ l.dropWhile isWsChar with hs
      exact hu c hc
    · rw [hu] at h
      simp only [List.reverse_eq_nil_iff] at h
      rw [List.dropWhile_eq_nil_iff] at h
      have hx : ¬ isWsChar x = true := by
        have := List.head?_dropWhile_not isWsChar l
        rw [hu] at this
        simpa using this
      exact absurd (h x (by simp)) hx
  · intro h
    unfold trimStr
    have h1 : l.dropWhile isWsChar = [] := List.dropWhile_eq_nil_iff.mpr fun c hc => h c hc
    rw [h1]
    rfl

theorem trimStr_ne_nil_of_mem {l : List Char} {c : Char} (hc : c ∈ l)
    (hw : isWsChar c = false) : trimStr l ≠ [] := by
  intro h
  rw [trimStr_eq_nil_iff] at h
  rw [h c hc] at hw
  cases hw

theorem trimStr_append_ws {x t : List Char} (h : ∀ c ∈ t, isWsChar c = true) :
    trimStr (x ++ t) = trimStr x := by
  by_cases hx : x.dropWhile isWsChar = []
  · have hxall : ∀ c ∈ x, isWsChar c = true := List.dropWhile_eq_nil_iff.mp hx
    have h1 : trimStr (x ++ t) = [] := by
      rw [trimStr_eq_nil_iff]
      intro c hc
      rcases List.mem_append.mp hc with hcx | hct
      · exact hxall c hcx
      · exact h c hct
    have h2 : trimStr x = [] := trimStr_eq_nil_iff.mpr hxall
    rw [h1, h2]
  · unfold trimStr
    rw [dropWhile_append_of_ne_nil t hx]
    rw [List.reverse_append]
    rw [dropWhile_append_of_all _ (by intro c hc; rw [List.mem_reverse] at hc; exact h c hc)]

theorem trimStr_idem (s : List Char) : trimStr (trimStr s) = trimStr s := by
  rcases hs : trimStr s with _ | ⟨c, r⟩
  · rfl
  · have hhead : ¬ isWsChar c = true := by
      unfold trimStr at hs
      rcases hu : s.dropWhile isWsChar with _ | ⟨x, u⟩
      · rw [hu] at hs
        simp at hs
      · have hx : ¬ isWsChar x = true := by
          have := List.head?_dropWhile_not isWsChar s
          rw [hu] at this
          simpa using this
        rw [hu] at hs
        -- trimStr s is a prefix of x :: u, so its head is x
        have hpre : (((x :: u).reverse.dropWhile isWsChar).reverse) <+: (x :: u) := by
          apply List.reverse_suffix.mp
          rw [List.reverse_reverse]
          exact List.dropWhile_suffix _
        rw [hs] at hpre
        obtain ⟨tl, htl⟩ := hpre
        rw [List.cons_append] at htl
        injection htl with h1 _
        rw [← h1] at hx
        exact hx
    unfold trimStr
    rw [List.dropWhile_cons_of_neg hhead]
    have hlast : ∀ d ∈ ((c :: r).reverse.takeWhile isWsChar), isWsChar d = true :=
      fun d hd => List.mem_takeWhile_imp hd
    -- the reverse side: dropWhile on (c :: r).reverse removes nothing new
    have : (c :: r).reverse.dropWhile isWsChar = (c :: r).reverse := by
      rw [← hs]
      unfold trimStr
      rw [List.reverse_reverse]
      exact dropWhile_self_idem isWsChar ((List.dropWhile isWsChar s).reverse)
    rw [this, List.reverse_reverse]

theorem joinSep_append {α : Type} (sep : List α) {L1 L2 : List (List α)}
    (h1 : L1 ≠ []) (h2 : L2 ≠ []) :
    joinSep sep (L1 ++ L2) = joinSep sep L1 ++ sep ++ joinSep sep L2 := by
  induction L1 with
  | nil => simp at h1
  | cons x t ih =>
      rcases t with _ | ⟨y, ts⟩
      · rcases L2 with _ | ⟨z, zs⟩
        · simp at h2
        · rw [joinSep]
          rfl
      · rw [List.cons_append, joinSep, List.cons_append]
        rw [joinSep]
        rw [show y :: (ts ++ L2) = y :: ts ++ L2 from rfl, ih (by simp)]
        simp

theorem linesOf_cons_nl (b : List Char) : linesOf ('\n' :: b) = [] :: linesOf b := by
  rw [linesOf]
  simp

theorem linesOf_cons_of_ne {c : Char} (b : List Char) (hc : c ≠ '\n') :
    linesOf (c :: b) =
      ((linesOf b).headD []).cons c :: (linesOf b).tail := by
  rw [linesOf]
  rw [if_neg hc]
  rcases hb : linesOf b with _ | ⟨l, ls⟩
  · exact absurd hb (linesOf_ne_nil b)
  · rfl

theorem linesOf_append_nl (a b : List Char) :
    linesOf (a ++ '\n' :: b) = linesOf a ++ linesOf b := by
  induction a with
  | nil =>
      rw [List.nil_append, linesOf_cons_nl]
      rfl
  | cons c r ih =>
      by_cases hc : c = '\n'
      · subst hc
        rw [List.cons_append, linesOf_cons_nl, linesOf_cons_nl, ih]
        rfl
      · rw [List.cons_append, linesOf_cons_of_ne _ hc, linesOf_cons_of_ne _ hc, ih]
        rcases hr : linesOf r with _ | ⟨l, ls⟩
        · exact absurd hr (linesOf_ne_nil r)
        · simp

theorem linesOf_of_no_nl {s : List Char} (h : '\n' ∉ s) : linesOf s = [s] := by
  induction s with
  | nil => rfl
  | cons c r ih =>
      simp only [List.mem_cons, not_or] at h
      rw [linesOf_cons_of_ne _ (fun hc => h.1 hc.symm), ih h.2]
      rfl

theorem linesOf_joinSep_nl {L : List (List Char)} (hL : L ≠ [])
    (h : ∀ l ∈ L, '\n' ∉ l) : linesOf (joinSep ['\n'] L) = L := by
  induction L with
  | nil => simp at hL
  | cons x t ih =>
      rcases t with _ | ⟨y, ts⟩
      · rw [joinSep]
        exact linesOf_of_no_nl (h x (by simp))
      · rw [joinSep, List.append_assoc, List.cons_append, List.nil_append]
        rw [linesOf_append_nl]
        rw [linesOf_of_no_nl (h x (by simp))]
        rw [ih (by simp) fun l hl => h l (by simp [hl])]
        rfl

theorem linesOf_no_nl (s : List Char) : ∀ l ∈ linesOf s, '\n' ∉ l := by
  induction s with
  | nil =>
      intro l hl
      simp [linesOf] at hl
      simp [hl]
  | cons c r ih =>
      intro l hl
      by_cases hc : c = '\n'
      · subst hc
        rw [linesOf_cons_nl] at hl
        rcases List.mem_cons.mp hl with rfl | hl
        · simp
        · exact ih l hl
      · rw [linesOf_cons_of_ne _ hc] at hl
        rcases hr : linesOf r with _ | ⟨m, ms⟩
        · exact absurd hr (linesOf_ne_nil r)
        · rw [hr] at hl
          simp only [List.headD_cons, List.tail_cons] at hl
          rcases List.mem_cons.mp hl with rfl | hl
          · intro hmem
            rcases List.mem_cons.mp hmem with hcc | hmm
            · exact hc hcc.symm
            · exact ih m (by simp [hr]) hmm
          · exact ih l (by simp [hr, hl])

theorem linesOf_joinSep_nl2 {cs : List (List Char)} (hcs : cs ≠ []) :
    linesOf (joinSep nl2 cs) = joinSep [([] : List Char)] (cs.map linesOf) := by
  induction cs with
  | nil => simp at hcs
  | cons c t ih =>
      rcases t with _ | ⟨c', ts⟩
      · simp [joinSep]
      · have hsplit : joinSep nl2 (c :: c' :: ts) =
            c ++ '\n' :: ('\n' :: joinSep nl2 (c' :: ts)) := by
          rw [joinSep]
          simp [nl2]
        rw [hsplit, linesOf_append_nl, linesOf_cons_nl, ih (by simp)]
        rw [show List.map linesOf (c :: c' :: ts) =
          linesOf c :: linesOf c' :: List.map linesOf ts from rfl]
        rw [joinSep]
        simp

theorem containsArrow_cons_of_mismatch {c : Char} {rest : List Char}
    (h : ∀ r1, c = '-' → rest = '-' :: '>' :: r1 → False) :
    containsArrow (c :: rest) = containsArrow rest := containsArrow.eq_2 c rest h

theorem containsArrow_append_nl (a b : List Char) :
    containsArrow (a ++ '\n' :: b) = (containsArrow a || containsArrow b) := by
  induction a using containsArrow.induct with
  | case1 rest =>
      rw [List.cons_append, List.cons_append, List.cons_append]
      rw [containsArrow, containsArrow]
      simp
  | case2 c rest hne ih =>
      rw [List.cons_append]
      have hne2 : ∀ r1, c = '-' → rest ++ '\n' :: b = '-' :: '>' :: r1 → False := by
        intro r1 hc hr
        match rest, hr with
        | [], hr =>
            simp at hr
        | [x], hr =>
            simp at hr
        | x :: y :: rest', hr =>
            simp at hr
            exact hne rest' hc (by simp [hr.1, hr.2.1, hr.2.2])
      rw [containsArrow_cons_of_mismatch hne2, containsArrow_cons_of_mismatch hne, ih]
  | case3 =>
      have h1 : containsArrow ('\n' :: b) = containsArrow b :=
        containsArrow_cons_of_mismatch (by intro r1 hc _; cases hc)
      rw [List.nil_append, h1, show containsArrow ([] : List Char) = false from rfl,
        Bool.false_or]

theorem containsArrow_joinSep_nl (L : List (List Char)) :
    containsArrow (joinSep ['\n'] L) = L.any containsArrow := by
  induction L with
  | nil => rfl
  | cons x t ih =>
      rcases t with _ | ⟨y, ts⟩
      · rw [joinSep]
        simp
      · rw [joinSep, List.append_assoc, List.cons_append, List.nil_append]
        rw [containsArrow_append_nl, ih]
        simp

theorem trimStr_infix_self (s : List Char) : trimStr s <:+: s := by
  unfold trimStr
  have h1 : s.dropWhile isWsChar <:+ s := List.dropWhile_suffix _
  have h2 : ((s.dropWhile isWsChar).reverse.dropWhile isWsChar).reverse <+:
      s.dropWhile isWsChar := by
    apply List.reverse_suffix.mp
    rw [List.reverse_reverse]
    exact List.dropWhile_suffix _
  exact h2.isInfix.trans h1.isInfix

theorem mem_of_mem_trimStr {c : Char} {s : List Char} (h : c ∈ trimStr s) : c ∈ s :=
  (trimStr_infix_self s).subset h

theorem mem_joinSep {α : Type} [DecidableEq α] {c : α} {sep : List α} {L : List (List α)}
    (h : c ∈ joinSep sep L) : c ∈ sep ∨ ∃ l ∈ L, c ∈ l := by
  induction L with
  | nil => simp [joinSep] at h
  | cons x t ih =>
      rcases t with _ | ⟨y, ts⟩
      · rw [joinSep] at h
        exact Or.inr ⟨x, by simp, h⟩
      · rw [joinSep] at h
        simp only [List.mem_append] at h
        rcases h with (hx | hsep) | hrest
      
        · exact Or.inr ⟨x, by simp, hx⟩
        · exact Or.inl hsep
        · rcases ih hrest with hsep | ⟨l, hl, hc⟩
          · exact Or.inl hsep
          · exact Or.inr ⟨l, by simp [List.mem_cons.mp hl], hc⟩

theorem mem_of_mem_linesOf {c : Char} {l s : List Char}
    (hl : l ∈ linesOf s) (hc : c ∈ l) : c ∈ s := by
  have h1 : l <:+: joinSep ['\n'] (linesOf s) := mem_joinSep_infix ['\n'] (linesOf s) l hl
  rw [joinSep_linesOf] at h1
  exact h1.subset hc

theorem splitDNLAux_mem (acc s : List Char) :
    ∀ f ∈ splitDNLAux acc s, ∀ c ∈ f, c ∈ acc ∨ c ∈ s := by
  induction acc, s using splitDNLAux.induct with
  | case1 acc rest ih =>
      intro f hf c hc
      rw [splitDNLAux] at hf
      rcases List.mem_cons.mp hf with rfl | hf
      · rw [List.mem_reverse] at hc
        exact Or.inl hc
      · rcases ih f hf c hc with h | h
        · simp at h
        · right
          have : c ∈ rest := (List.dropWhile_sublist _).mem h
          simp [this]
  | case2 acc c0 rest hne ih =>
      intro f hf c hc
      rw [splitDNLAux.eq_2 _ _ _ hne] at hf
      rcases ih f hf c hc with h | h
      · rcases List.mem_cons.mp h with rfl | h
        · right; simp
        · exact Or.inl h
      · right; simp [h]
  | case3 acc =>
      intro f hf c hc
      rw [splitDNLAux] at hf
      simp at hf
      subst hf
      rw [List.mem_reverse] at hc
      exact Or.inl hc

theorem splitDNL_mem {s : List Char} {f : List Char} (hf : f ∈ splitDNL s) {c : Char}
    (hc : c ∈ f) : c ∈ s := by
  rcases splitDNLAux_mem [] s f hf c hc with h | h
  · simp at h
  · exact h

theorem getD_drop {α : Type} (L : List α) (b j : Nat) (d : α) :
    (L.drop b).getD j d = L.getD (b + j) d := by
  rw [List.getD_eq_getElem?_getD, List.getD_eq_getElem?_getD, List.getElem?_drop]

theorem getD_mem {α : Type} {L : List α} {n : Nat} (h : n < L.length) (d : α) :
    L.getD n d ∈ L := by
  rw [List.getD_eq_getElem?_getD, List.getElem?_eq_getElem h]
  exact List.getElem_mem h

theorem findMarkerIdx_none_mem {L : List (List Char)} (h : findMarkerIdx L = none) :
    ∀ l ∈ L, containsArrow l = false := by
  induction L with
  | nil => simp
  | cons x t ih =>
      rw [findMarkerIdx] at h
      by_cases hx : containsArrow x
      · rw [if_pos hx] at h
        cases h
      · rw [if_neg hx] at h
        intro l hl
        rcases List.mem_cons.mp hl with rfl | hl
        · simpa using hx
        · rcases ht : findMarkerIdx t with _ | i
          · exact ih ht l hl
          · rw [ht] at h
            simp [Option.map] at h

theorem findMarkerIdx_some {L : List (List Char)} {i : Nat}
    (h : findMarkerIdx L = some i) :
    i < L.length ∧ containsArrow (L.getD i []) = true ∧
      ∀ j, j < i → containsArrow (L.getD j []) = false := by
  induction L generalizing i with
  | nil => cases h
  | cons x t ih =>
      rw [findMarkerIdx] at h
      by_cases hx : containsArrow x
      · rw [if_pos hx] at h
        injection h with h
        subst h
        exact ⟨by simp, by simpa using hx, fun j hj => by omega⟩
      · rw [if_neg hx] at h
        rcases ht : findMarkerIdx t with _ | i'
        · rw [ht] at h
          cases h
        · rw [ht] at h
          have hi : i = i' + 1 := by
            injection h with h
            exact h.symm
          subst hi
          obtain ⟨h1, h2, h3⟩ := ih ht
          refine ⟨by simpa using h1, by simpa using h2, ?_⟩
          intro j hj
          rcases j with _ | j'
          · simpa using hx
          · have : (x :: t).getD (j' + 1) [] = t.getD j' [] := by simp
            rw [this]
            exact h3 j' (by omega)

theorem findMarkerIdx_eq_some {L : List (List Char)} {m : Nat} (hm : m < L.length)
    (hpre : ∀ j, j < m → containsArrow (L.getD j []) = false)
    (harr : containsArrow (L.getD m []) = true) : findMarkerIdx L = some m := by
  induction L generalizing m with
  | nil => simp at hm
  | cons x t ih =>
      rcases m with _ | m'
      · rw [findMarkerIdx, if_pos (by simpa using harr)]
      · have hx : containsArrow x = false := by simpa using hpre 0 (by omega)
        rw [findMarkerIdx, if_neg (by simp [hx])]
        have ht : findMarkerIdx t = some m' := by
          apply ih (by simpa using hm)
          · intro j hj
            have := hpre (j + 1) (by omega)
            simpa using this
          · simpa using harr
        rw [ht]
        rfl

theorem findMarkerIdx_append_skip {L1 L2 : List (List Char)}
    (h : ∀ l ∈ L1, containsArrow l = false) :
    findMarkerIdx (L1 ++ L2) = (findMarkerIdx L2).map (· + L1.length) := by
  induction L1 with
  | nil =>
      rcases h2 : findMarkerIdx L2 with _ | i <;> simp [h2]
  | cons x t ih =>
      rw [List.cons_append, findMarkerIdx, if_neg (by simp [h x (by simp)])]
      rw [ih fun l hl => h l (by simp [hl])]
      rcases h2 : findMarkerIdx L2 with _ | i
      · rfl
      · show some (i + t.length + 1) = some (i + (t.length + 1))
        rw [Nat.add_assoc]

theorem walkBack_le (L : List (List Char)) (i : Nat) : walkBack L i ≤ i := by
  induction i with
  | zero => exact Nat.le_refl 0
  | succ i' ih =>
      rw [walkBack]
      split
      · exact Nat.le_refl _
      · exact Nat.le_succ_of_le ih

theorem walkBack_nonblank (L : List (List Char)) (i : Nat) :
    ∀ j, walkBack L i ≤ j → j < i → trimStr (L.getD j []) ≠ [] := by
  induction i with
  | zero => intro j _ hj; omega
  | succ i' ih =>
      intro j h1 h2
      rw [walkBack] at h1
      by_cases hb : trimStr (L.getD i' []) = []
      · rw [if_pos hb] at h1
        omega
      · rw [if_neg hb] at h1
        by_cases hji : j = i'
        · subst hji; exact hb
        · exact ih j h1 (by omega)

theorem walkBack_zero (L : List (List Char)) (i : Nat)
    (h : ∀ j, j < i → trimStr (L.getD j []) ≠ []) : walkBack L i = 0 := by
  induction i with
  | zero => rfl
  | succ i' ih =>
      rw [walkBack, if_neg (h i' (by omega))]
      exact ih fun j hj => h j (by omega)

theorem walkBack_append {L1 L2 : List (List Char)} (m : Nat)
    (h : ∀ j, j < m → trimStr (L2.getD j []) ≠ []) :
    walkBack (L1 ++ [] :: L2) (L1.length + 1 + m) = L1.length + 1 := by
  induction m with
  | zero =>
      have hget : (L1 ++ [] :: L2).getD L1.length [] = [] := by
        rw [List.getD_append_right _ _ _ _ (Nat.le_refl _), Nat.sub_self]
        rfl
      rw [walkBack, hget]
      simp [trimStr]
  | succ m' ih =>
      have harith : L1.length + 1 + (m' + 1) = (L1.length + 1 + m') + 1 := by omega
      rw [harith, walkBack]
      have hget : (L1 ++ [] :: L2).getD (L1.length + 1 + m') [] = L2.getD m' [] := by
        rw [List.getD_append_right _ _ _ _ (by omega)]
        have : L1.length + 1 + m' - L1.length = m' + 1 := by omega
        rw [this]
        simp
      rw [hget, if_neg (h m' (by omega))]
      exact ih fun j hj => h j (by omega)

/-- No two adjacent newline characters occur in the text. -/
def noDNL : List Char → Bool
  | '\n' :: '\n' :: _ => false
  | _ :: rest => noDNL rest
  | [] => true

theorem noDNL_tail {c : Char} {rest : List Char} (h : noDNL (c :: rest) = true) :
    noDNL rest = true := by
  by_cases hp : c = '\n' ∧ ∃ r1, rest = '\n' :: r1
  · obtain ⟨hc, r1, hr⟩ := hp
    subst hc
    subst hr
    cases h
  · rw [noDNL.eq_2 c rest (fun t hc hr => hp ⟨hc, t, hr⟩)] at h
    exact h

theorem noDNL_append_singleton {a : List Char} {c : Char} (h : noDNL a = true)
    (hl : a.getLast? = some '\n' → c ≠ '\n') : noDNL (a ++ [c]) = true := by
  induction a using noDNL.induct with
  | case1 tail => cases h
  | case2 d rest hne ih =>
      rw [List.cons_append]
      have hne2 : ∀ t, d = '\n' → rest ++ [c] = '\n' :: t → False := by
        intro t hd hr
        subst hd
        rcases rest with _ | ⟨x, r2⟩
        · simp at hr
          have : c ≠ '\n' := hl (by simp)
          exact this hr.1
        · simp at hr
          exact hne r2 rfl (by rw [hr.1])
      rw [noDNL.eq_2 _ _ hne2]
      apply ih (noDNL_tail h)
      intro hg
      rcases rest with _ | ⟨x, r2⟩
      · simp at hg
      · rw [List.getLast?_cons_cons] at hl
        exact hl hg
  | case3 =>
      rw [List.nil_append, noDNL.eq_2 c [] (by intro t _ ht; cases ht)]
      rfl

theorem splitDNLAux_ne_nil (acc s : List Char) : splitDNLAux acc s ≠ [] := by
  induction acc, s using splitDNLAux.induct with
  | case1 acc rest ih =>
      rw [splitDNLAux]
      simp
  | case2 acc c rest hne ih =>
      rw [splitDNLAux.eq_2 _ _ _ hne]
      exact ih
  | case3 acc =>
      rw [splitDNLAux]
      simp

theorem dropNls_head_ne (s : List Char) : (dropNls s).head? ≠ some '\n' := by
  intro h
  have h2 := List.head?_dropWhile_not (fun c => c = '\n') s
  rw [show List.dropWhile (fun c => c = '\n') s = dropNls s from rfl, h] at h2
  simp at h2

theorem dropNls_of_head_ne {s : List Char} (h : s.head? ≠ some '\n') : dropNls s = s := by
  rcases s with _ | ⟨c, r⟩
  · rfl
  · have hc : ¬ (decide (c = '\n') = true) := by
      simp only [List.head?_cons, ne_eq, Option.some.injEq] at h
      simp [h]
    exact List.dropWhile_cons_of_neg hc

theorem noStrayCR_no_cr {s : List Char} (h : noStrayCR s = true) : '\r' ∉ normalizeNl s := by
  induction s using noStrayCR.induct with
  | case1 rest ih =>
      rw [noStrayCR.eq_1] at h
      rw [show normalizeNl ('\r' :: '\n' :: rest) = '\n' :: normalizeNl rest from rfl]
      intro hmem
      rcases List.mem_cons.mp hmem with hbad | hmem
      · cases hbad
      · exact ih h hmem
  | case2 tail hne =>
      rw [noStrayCR.eq_2 _ hne] at h
      cases h
  | case3 c rest hne1 hne2 ih =>
      rw [noStrayCR.eq_3 _ _ hne1 hne2] at h
      rw [normalizeNl.eq_2 _ _ (fun r1 hc hr => hne1 r1 hc hr)]
      intro hmem
      rcases List.mem_cons.mp hmem with hbad | hmem
      · exact hne2 hbad.symm
      · exact ih h hmem
  | case4 => simp [normalizeNl]

theorem mem_dropLast_filter {α : Type} (p : α → Bool) (L : List α) :
    ∀ x ∈ (L.filter p).dropLast, x ∈ L.dropLast := by
  induction L with
  | nil => simp
  | cons a t ih =>
      intro x hx
      by_cases hpa : p a
      · rw [List.filter_cons_of_pos hpa] at hx
        rcases hft : t.filter p with _ | ⟨b, fb⟩
        · rw [hft] at hx
          simp at hx
        · have htne : t ≠ [] := by
            intro hteq
            rw [hteq] at hft
            cases hft
          rw [hft, List.dropLast_cons₂] at hx
          rcases htc : t with _ | ⟨y, ys⟩
          · exact absurd htc htne
          · rw [List.dropLast_cons₂]
            rcases List.mem_cons.mp hx with rfl | hx2
            · exact List.mem_cons_self _ _
            · apply List.mem_cons_of_mem
              rw [← htc]
              apply ih
              rw [hft]
              rw [htc] at hft
              exact hx2
      · rw [List.filter_cons_of_neg hpa] at hx
        have h1 := ih x hx
        rcases htc : t with _ | ⟨y, ys⟩
        · rw [htc] at h1
          simp at h1
        · rw [List.dropLast_cons₂]
          rw [htc] at h1
          exact List.mem_cons_of_mem _ h1

theorem joinSep_head {α : Type} (sep : List α) (x : List α) (rest : List (List α))
    (hx : x ≠ []) : (joinSep sep (x :: rest)).head? = x.head? := by
  rcases rest with _ | ⟨y, ys⟩
  · rw [joinSep]
  · rw [joinSep]
    rcases x with _ | ⟨c, r⟩
    · exact absurd rfl hx
    · simp

theorem splitDNLAux_frag_inv : ∀ acc s : List Char,
    (acc.head? = some '\n' → s.head? ≠ some '\n') →
    noDNL acc.reverse = true →
    (acc = [] → s.head? ≠ some '\n') →
    (acc ≠ [] → acc.getLast? ≠ some '\n') →
    (∀ f ∈ splitDNLAux acc s, noDNL f = true ∧ f.head? ≠ some '\n') ∧
    (∀ f ∈ (splitDNLAux acc s).dropLast, f.getLast? ≠ some '\n') := by
  intro acc s
  induction acc, s using splitDNLAux.induct with
  | case1 acc rest ih =>
      intro H1 H2 H3 H4
      obtain ⟨ihA, ihB⟩ := ih (by simp) (by rfl) (fun _ => dropNls_head_ne rest) (by simp)
      rw [splitDNLAux]
      constructor
      · intro f hf
        rcases List.mem_cons.mp hf with rfl | hf
        · refine ⟨H2, ?_⟩
          rw [List.head?_reverse]
          rcases acc with _ | ⟨a, as⟩
          · simp
          · exact H4 (by simp)
        · exact ihA f hf
      · intro f hf
        rcases hT : splitDNLAux [] (dropNls rest) with _ | ⟨t0, ts⟩
        · exact absurd hT (splitDNLAux_ne_nil [] (dropNls rest))
        · rw [hT, List.dropLast_cons₂] at hf
          rcases List.mem_cons.mp hf with rfl | hf
          · rw [List.getLast?_reverse]
            intro hbad
            exact H1 hbad rfl
          · apply ihB
            rw [hT]
            exact hf
  | case2 acc c rest hne ih =>
      intro H1 H2 H3 H4
      rw [splitDNLAux.eq_2 _ _ _ hne]
      apply ih
      · intro hc hr
        simp only [List.head?_cons, Option.some.injEq] at hc
        rcases rest with _ | ⟨r0, r2⟩
        · simp at hr
        · simp only [List.head?_cons, Option.some.injEq] at hr
          exact hne r2 hc (by rw [hr])
      · rw [List.reverse_cons]
        apply noDNL_append_singleton H2
        rw [List.getLast?_reverse]
        intro hacc hc
        exact H1 hacc (by simp [hc])
      · intro hbad
        cases hbad
      · intro _
        rcases acc with _ | ⟨a, as⟩
        · simp only [List.getLast?_singleton, ne_eq, Option.some.injEq]
          intro hc
          exact H3 rfl (by simp [hc])
        · rw [List.getLast?_cons_cons]
          exact H4 (by simp)
  | case3 acc =>
      intro H1 H2 H3 H4
      rw [splitDNLAux]
      constructor
      · intro f hf
        rcases List.mem_cons.mp hf with rfl | hf
        · refine ⟨H2, ?_⟩
          rw [List.head?_reverse]
          rcases acc with _ | ⟨a, as⟩
          · simp
          · exact H4 (by simp)
        · simp at hf
      · intro f hf
        simp at hf

theorem splitDNL_frag_props {s : List Char} (hs : s.head? ≠ some '\n') :
    (∀ f ∈ splitDNL s, noDNL f = true ∧ f.head? ≠ some '\n') ∧
    (∀ f ∈ (splitDNL s).dropLast, f.getLast? ≠ some '\n') :=
  splitDNLAux_frag_inv [] s (by simp) (by rfl) (fun _ => hs) (by simp)

theorem splitDNLAux_noDNL_eq : ∀ acc s : List Char, noDNL s = true →
    splitDNLAux acc s = [acc.reverse ++ s] := by
  intro acc s
  induction acc, s using splitDNLAux.induct with
  | case1 acc rest ih =>
      intro h
      exact Bool.noConfusion h
  | case2 acc c rest hne ih =>
      intro h
      rw [splitDNLAux.eq_2 _ _ _ hne, ih (noDNL_tail h)]
      simp
  | case3 acc =>
      intro _
      rw [splitDNLAux]
      simp

theorem splitDNL_of_noDNL {s : List Char} (h : noDNL s = true) : splitDNL s = [s] := by
  rw [splitDNL, splitDNLAux_noDNL_eq [] s h]
  simp

theorem splitDNLAux_cut : ∀ c acc rest : List Char, c ≠ [] → noDNL c = true →
    (acc.head? = some '\n' → c.head? ≠ some '\n') → c.getLast? ≠ some '\n' →
    splitDNLAux acc (c ++ '\n' :: '\n' :: rest) =
      (acc.reverse ++ c) :: splitDNLAux [] (dropNls rest) := by
  intro c
  induction c with
  | nil => intro acc rest hc _ _ _; exact absurd rfl hc
  | cons ch c' ih =>
      intro acc rest _ hdnl hhead hlast
      rcases c' with _ | ⟨ch2, c''⟩
      · have hch : ch ≠ '\n' := by
          simp only [List.getLast?_singleton, ne_eq, Option.some.injEq] at hlast
          exact hlast
        have hne : ∀ r1, ch = '\n' → ('\n' :: '\n' :: rest : List Char) = '\n' :: r1 → False :=
          fun r1 hc _ => hch hc
        rw [List.singleton_append, splitDNLAux.eq_2 _ _ _ hne, splitDNLAux]
        simp
      · have hne : ∀ r1, ch = '\n' → (ch2 :: c'' ++ '\n' :: '\n' :: rest) = '\n' :: r1 → False := by
          intro r1 hc hr
          subst hc
          rw [List.cons_append] at hr
          injection hr with h1 _
          subst h1
          exact Bool.noConfusion hdnl
        have hhead2 : (ch :: acc).head? = some '\n' → (ch2 :: c'').head? = some '\n' → False := by
          intro h1 h2
          simp only [List.head?_cons, Option.some.injEq] at h1 h2
          subst h1
          rw [h2] at hdnl
          exact Bool.noConfusion hdnl
        rw [List.cons_append, splitDNLAux.eq_2 _ _ _ hne]
        rw [ih (ch :: acc) rest (by simp) (noDNL_tail hdnl) hhead2
          (by intro hbad; exact hlast (by rw [List.getLast?_cons_cons]; exact hbad))]
        simp

theorem splitDNL_joinSep_nl2 : ∀ L : List (List Char), L ≠ [] →
    (∀ f ∈ L, noDNL f = true ∧ f ≠ [] ∧ f.head? ≠ some '\n') →
    (∀ f ∈ L.dropLast, f.getLast? ≠ some '\n') →
    splitDNL (joinSep nl2 L) = L := by
  intro L
  induction L with
  | nil => intro h _ _; exact absurd rfl h
  | cons x t ih =>
      intro _ hall hlast
      rcases t with _ | ⟨y, ts⟩
      · rw [joinSep]
        exact splitDNL_of_noDNL (hall x (by simp)).1
      · have hjoin : joinSep nl2 (x :: y :: ts) = x ++ '\n' :: '\n' :: joinSep nl2 (y :: ts) := by
          rw [joinSep, nl2]
          simp
        have hyne : y ≠ [] := (hall y (by simp)).2.1
        have hhead : (joinSep nl2 (y :: ts)).head? ≠ some '\n' := by
          rw [joinSep_head nl2 y ts hyne]
          exact (hall y (by simp)).2.2
        rw [hjoin, splitDNL, splitDNLAux_cut x [] _ (hall x (by simp)).2.1
          (hall x (by simp)).1 (by simp) (hlast x (by rw [List.dropLast_cons₂]; simp))]
        rw [dropNls_of_head_ne hhead]
        rw [show splitDNLAux [] (joinSep nl2 (y :: ts)) = splitDNL (joinSep nl2 (y :: ts)) from
          rfl]
        rw [ih (by simp) (fun f hf => hall f (by simp [hf]))
          (fun f hf => hlast f (by rw [List.dropLast_cons₂]; exact List.mem_cons_of_mem _ hf))]
        simp

theorem splitDNLAux_first : ∀ acc s : List Char, ∃ c0 fs, splitDNLAux acc s = c0 :: fs ∧
    (acc.reverse ++ s = c0 ∨ ∃ rest, acc.reverse ++ s = c0 ++ '\n' :: '\n' :: rest) := by
  intro acc s
  induction acc, s using splitDNLAux.induct with
  | case1 acc rest ih =>
      rw [splitDNLAux]
      exact ⟨acc.reverse, _, rfl, Or.inr ⟨rest, rfl⟩⟩
  | case2 acc c rest hne ih =>
      rw [splitDNLAux.eq_2 _ _ _ hne]
      obtain ⟨c0, fs, heq, hd⟩ := ih
      refine ⟨c0, fs, heq, ?_⟩
      have hre : acc.reverse ++ c :: rest = (c :: acc).reverse ++ rest := by simp
      rw [hre]
      exact hd
  | case3 acc =>
      rw [splitDNLAux]
      exact ⟨acc.reverse, [], rfl, Or.inl (by simp)⟩

theorem splitDNL_first (s : List Char) : ∃ c0 fs, splitDNL s = c0 :: fs ∧
    (s = c0 ∨ ∃ rest, s = c0 ++ '\n' :: '\n' :: rest) := by
  obtain ⟨c0, fs, heq, hd⟩ := splitDNLAux_first [] s
  exact ⟨c0, fs, heq, by simpa using hd⟩

theorem containsArrow_false_of_sub {t s : List Char} (hts : t <:+: s)
    (hs : containsArrow s = false) : containsArrow t = false := by
  by_contra hc
  rw [Bool.not_eq_false] at hc
  have h1 := ((containsArrow_iff_marker_sub t).mp hc).trans hts
  rw [(containsArrow_iff_marker_sub s).mpr h1] at hs
  cases hs

theorem mem_take_getD {α : Type} {L : List α} {b : Nat} {l : α} (hl : l ∈ L.take b) (d : α) :
    ∃ j, j < b ∧ j < L.length ∧ L.getD j d = l := by
  obtain ⟨j, hj, hval⟩ := List.mem_iff_getElem.mp hl
  rw [List.length_take] at hj
  have hjb : j < b := lt_of_lt_of_le hj (min_le_left _ _)
  have hjL : j < L.length := lt_of_lt_of_le hj (min_le_right _ _)
  refine ⟨j, hjb, hjL, ?_⟩
  rw [List.getD_eq_getElem?_getD, List.getElem?_eq_getElem hjL]
  rw [List.getElem_take] at hval
  simpa using hval

theorem getD_eq_getElem {α : Type} {L : List α} {j : Nat} (h : j < L.length) (d : α) :
    L.getD j d = L[j] := by
  rw [List.getD_eq_getElem?_getD, List.getElem?_eq_getElem h]
  rfl

theorem containsArrow_ne_nil {l : List Char} (h : containsArrow l = true) : l ≠ [] := by
  intro he
  subst he
  cases h

theorem trimStr_nil : trimStr [] = [] := rfl

theorem resplit_marker_core (h : List Char) (cues : List (List Char))
    (hh : trimStr h = h)
    (hharr : containsArrow h = false)
    (hhcr : '\r' ∉ h)
    (c0 : List Char) (cs : List (List Char)) (hcues : cues = c0 :: cs)
    (hcr : ∀ f ∈ cues, '\r' ∉ f)
    (hprops : ∀ f ∈ cues, noDNL f = true ∧ f ≠ [] ∧ f.head? ≠ some '\n')
    (hlastp : ∀ f ∈ cues.dropLast, f.getLast? ≠ some '\n')
    (hblank : ∀ f ∈ cues, (!(trimStr f).isEmpty) = true)
    (m : Nat) (hm : m < (linesOf c0).length)
    (hmarr : containsArrow ((linesOf c0).getD m []) = true)
    (hmpre : ∀ j, j < m → trimStr ((linesOf c0).getD j []) ≠ [] ∧
        containsArrow ((linesOf c0).getD j []) = false) :
    splitVttIntoCues (recombine h cues) = (h, cues) := by
  subst hcues
  have hcs_cases : ∃ T, linesOf (joinSep nl2 (c0 :: cs)) = linesOf c0 ++ T := by
    rcases cs with _ | ⟨y, ts⟩
    · refine ⟨[], ?_⟩
      rw [joinSep]
      simp
    · refine ⟨[] :: linesOf (joinSep nl2 (y :: ts)), ?_⟩
      rw [joinSep]
      rw [show c0 ++ nl2 ++ joinSep nl2 (y :: ts) =
        c0 ++ '\n' :: ('\n' :: joinSep nl2 (y :: ts)) by simp [nl2]]
      rw [linesOf_append_nl, linesOf_cons_nl]
  obtain ⟨T, hT⟩ := hcs_cases
  have hJcr : '\r' ∉ joinSep nl2 (c0 :: cs) := by
    intro hmem
    rcases mem_joinSep hmem with hsep | ⟨l, hl, hcl⟩
    · simp [nl2] at hsep
    · exact hcr l hl hcl
  have hfmc : findMarkerIdx (linesOf c0 ++ T) = some m := by
    apply findMarkerIdx_eq_some
    · rw [List.length_append]
      omega
    · intro j hj
      rw [List.getD_append _ _ _ _ (by omega)]
      exact (hmpre j hj).2
    · rw [List.getD_append _ _ _ _ hm]
      exact hmarr
  have hfmJ : findMarkerIdx (linesOf (joinSep nl2 (c0 :: cs))) = some m := by
    rw [hT]
    exact hfmc
  have hpreJ : ∀ j, j < m → trimStr ((linesOf (joinSep nl2 (c0 :: cs))).getD j []) ≠ [] := by
    intro j hj
    rw [hT, List.getD_append _ _ _ _ (by omega)]
    exact (hmpre j hj).1
  have hcuesJ : (splitDNL (joinSep nl2 (c0 :: cs))).filter (fun cue => !(trimStr cue).isEmpty)
      = c0 :: cs := by
    rw [splitDNL_joinSep_nl2 (c0 :: cs) (by simp) hprops hlastp]
    exact List.filter_eq_self.mpr hblank
  by_cases hhe : h = []
  · subst hhe
    have hR : recombine [] (c0 :: cs) = joinSep nl2 (c0 :: cs) := by
      rw [recombine, if_pos rfl, List.nil_append]
    have hnorm : normalizeNl (joinSep nl2 (c0 :: cs)) = joinSep nl2 (c0 :: cs) :=
      normalizeNl_id hJcr
    have hcompute : splitVttIntoCues (joinSep nl2 (c0 :: cs)) =
        (trimStr (joinSep ['\n'] ((linesOf (joinSep nl2 (c0 :: cs))).take
            (walkBack (linesOf (joinSep nl2 (c0 :: cs))) m))),
         (splitDNL (joinSep ['\n'] ((linesOf (joinSep nl2 (c0 :: cs))).drop
            (walkBack (linesOf (joinSep nl2 (c0 :: cs))) m)))).filter
           (fun cue => !(trimStr cue).isEmpty)) := by
      dsimp only [splitVttIntoCues]
      rw [hnorm, hfmJ]
    rw [hR, hcompute]
    rw [walkBack_zero _ m (fun j hj => hpreJ j hj)]
    rw [List.take_zero, List.drop_zero]
    rw [joinSep_linesOf, hcuesJ]
    rfl
  · have hR : recombine h (c0 :: cs) = h ++ '\n' :: ('\n' :: joinSep nl2 (c0 :: cs)) := by
      rw [recombine, if_neg hhe]
      simp [nl2]
    have hRcr : '\r' ∉ h ++ '\n' :: ('\n' :: joinSep nl2 (c0 :: cs)) := by
      intro hmem
      rcases List.mem_append.mp hmem with h1 | h1
      · exact hhcr h1
      · rcases List.mem_cons.mp h1 with h2 | h2
        · cases h2
        · rcases List.mem_cons.mp h2 with h3 | h3
          · cases h3
          · exact hJcr h3
    have hnorm : normalizeNl (h ++ '\n' :: ('\n' :: joinSep nl2 (c0 :: cs))) =
        h ++ '\n' :: ('\n' :: joinSep nl2 (c0 :: cs)) := normalizeNl_id hRcr
    have hlines : linesOf (h ++ '\n' :: ('\n' :: joinSep nl2 (c0 :: cs)))
        = (linesOf h ++ [[]]) ++ (linesOf c0 ++ T) := by
      rw [linesOf_append_nl, linesOf_cons_nl, hT]
      simp
    have hAfree : ∀ l ∈ linesOf h ++ [[]], containsArrow l = false := by
      intro l hl
      rcases List.mem_append.mp hl with h1 | h1
      · have hany : (linesOf h).any containsArrow = false := by
          rw [← containsArrow_joinSep_nl, joinSep_linesOf]
          exact hharr
        have h2 := List.any_eq_false.mp hany l h1
        simpa using h2
      · rw [List.mem_singleton.mp h1]
        rfl
    have hfmR : findMarkerIdx ((linesOf h ++ [[]]) ++ (linesOf c0 ++ T))
        = some ((linesOf h).length + 1 + m) := by
      rw [findMarkerIdx_append_skip hAfree, hfmc, Option.map_some']
      congr 1
      simp only [List.length_append, List.length_cons, List.length_nil]
      omega
    have hwb : walkBack ((linesOf h ++ [[]]) ++ (linesOf c0 ++ T)) ((linesOf h).length + 1 + m)
        = (linesOf h).length + 1 := by
      have hform : (linesOf h ++ [[]]) ++ (linesOf c0 ++ T) =
          linesOf h ++ [] :: (linesOf c0 ++ T) := by
        simp
      rw [hform]
      apply walkBack_append
      intro j hj
      rw [List.getD_append _ _ _ _ (by omega)]
      exact (hmpre j hj).1
    have hcompute : splitVttIntoCues (h ++ '\n' :: ('\n' :: joinSep nl2 (c0 :: cs))) =
        (trimStr (joinSep ['\n'] (((linesOf h ++ [[]]) ++ (linesOf c0 ++ T)).take
            (walkBack ((linesOf h ++ [[]]) ++ (linesOf c0 ++ T))
              ((linesOf h).length + 1 + m)))),
         (splitDNL (joinSep ['\n'] (((linesOf h ++ [[]]) ++ (linesOf c0 ++ T)).drop
            (walkBack ((linesOf h ++ [[]]) ++ (linesOf c0 ++ T))
              ((linesOf h).length + 1 + m))))).filter
           (fun cue => !(trimStr cue).isEmpty)) := by
      dsimp only [splitVttIntoCues]
      rw [hnorm, hlines, hfmR]
    rw [hR, hcompute, hwb]
    have hAlen : (linesOf h).length + 1 = (linesOf h ++ [[]]).length := by
      simp
    rw [hAlen, List.take_left, List.drop_left]
    rw [← hT, joinSep_linesOf, hcuesJ]
    rw [joinSep_append ['\n'] (linesOf_ne_nil h) (by simp)]
    rw [show joinSep ['\n'] [([] : List Char)] = [] from rfl, List.append_nil]
    rw [joinSep_linesOf]
    rw [trimStr_append_ws (by intro c hc; rw [List.mem_singleton.mp hc]; rfl)]
    rw [hh]

theorem resplit_of_marker (LNS : List (List Char))
    (hnl : ∀ l ∈ LNS, '\n' ∉ l) (hcrl : ∀ l ∈ LNS, '\r' ∉ l)
    (i : Nat) (hfm : findMarkerIdx LNS = some i) :
    splitVttIntoCues
      (recombine (trimStr (joinSep ['\n'] (LNS.take (walkBack LNS i))))
        ((splitDNL (joinSep ['\n'] (LNS.drop (walkBack LNS i)))).filter
          (fun cue => !(trimStr cue).isEmpty))) =
    (trimStr (joinSep ['\n'] (LNS.take (walkBack LNS i))),
     (splitDNL (joinSep ['\n'] (LNS.drop (walkBack LNS i)))).filter
       (fun cue => !(trimStr cue).isEmpty)) := by
  obtain ⟨hilen, hiarr, hipre⟩ := findMarkerIdx_some hfm
  have hble : walkBack LNS i ≤ i := walkBack_le LNS i
  have hnb := walkBack_nonblank LNS i
  generalize hgb : walkBack LNS i = b
  rw [hgb] at hble hnb
  have hharr : containsArrow (trimStr (joinSep ['\n'] (LNS.take b))) = false := by
    apply containsArrow_false_of_sub (trimStr_infix_self _)
    rw [containsArrow_joinSep_nl]
    apply List.any_eq_false.mpr
    intro l hl
    obtain ⟨j, hjb, hjL, hjval⟩ := mem_take_getD hl []
    rw [← hjval, hipre j (by omega)]
    simp
  have hhcr : '\r' ∉ trimStr (joinSep ['\n'] (LNS.take b)) := by
    intro hmem
    rcases mem_joinSep (mem_of_mem_trimStr hmem) with hsep | ⟨l, hl, hcl⟩
    · simp at hsep
    · exact hcrl l (List.take_subset _ _ hl) hcl
  have hdropne : LNS.drop b ≠ [] := by
    intro heq
    have hlen := congrArg List.length heq
    rw [List.length_drop] at hlen
    simp at hlen
    omega
  have hlinesCC : linesOf (joinSep ['\n'] (LNS.drop b)) = LNS.drop b :=
    linesOf_joinSep_nl hdropne (fun l hl => hnl l (List.drop_subset _ _ hl))
  have hbline : LNS.getD b [] ≠ [] := by
    by_cases hbi : b = i
    · rw [hbi]
      exact containsArrow_ne_nil hiarr
    · have h1 := hnb b le_rfl (lt_of_le_of_ne hble hbi)
      intro heq
      rw [heq] at h1
      exact h1 trimStr_nil
  have hblt : b < LNS.length := by omega
  have hCChead : (joinSep ['\n'] (LNS.drop b)).head? ≠ some '\n' := by
    have hdc := List.drop_eq_getElem_cons hblt
    have hbne : LNS[b] ≠ [] := by
      intro he
      apply hbline
      rw [getD_eq_getElem hblt []]
      exact he
    rw [hdc, joinSep_head ['\n'] _ _ hbne]
    intro hbad
    have h2 : '\n' ∈ LNS[b] := List.mem_of_mem_head? (by rw [hbad]; rfl)
    exact hnl _ (List.getElem_mem hblt) h2
  have hfrag := splitDNL_frag_props hCChead
  obtain ⟨c0, fs, hsd, hdec⟩ := splitDNL_first (joinSep ['\n'] (LNS.drop b))
  have hTex : ∃ T, LNS.drop b = linesOf c0 ++ T ∧ (T = [] ∨ T.getD 0 [] = []) := by
    rcases hdec with heq | ⟨rest, heq⟩
    · refine ⟨[], ?_, Or.inl rfl⟩
      rw [List.append_nil, ← hlinesCC, heq]
    · refine ⟨[] :: linesOf rest, ?_, Or.inr rfl⟩
      rw [← hlinesCC, heq, linesOf_append_nl, linesOf_cons_nl]
  obtain ⟨T, hT, hTcase⟩ := hTex
  have hmlt : i - b < (linesOf c0).length := by
    by_contra hge
    push_neg at hge
    rcases hTcase with rfl | hT0
    · have h1 : i - b < (LNS.drop b).length := by
        rw [List.length_drop]
        omega
      rw [hT, List.length_append] at h1
      simp at h1
      omega
    · have hKdrop : (LNS.drop b).getD (linesOf c0).length [] = [] := by
        rw [hT, List.getD_append_right _ _ _ _ le_rfl, Nat.sub_self]
        exact hT0
      have hKabs : LNS.getD (b + (linesOf c0).length) [] = [] := by
        rw [← getD_drop]
        exact hKdrop
      by_cases hlt : b + (linesOf c0).length < i
      · have h2 := hnb (b + (linesOf c0).length) (by omega) hlt
        rw [hKabs] at h2
        exact h2 trimStr_nil
      · have heqi : b + (linesOf c0).length = i := by omega
        rw [heqi] at hKabs
        rw [hKabs] at hiarr
        cases hiarr
  have hgetc0 : ∀ j, j < (linesOf c0).length → (linesOf c0).getD j [] = LNS.getD (b + j) [] := by
    intro j hj
    have h1 : (linesOf c0 ++ T).getD j [] = (linesOf c0).getD j [] :=
      List.getD_append _ _ _ _ hj
    rw [← h1, ← hT, getD_drop]
  have hmarr2 : containsArrow ((linesOf c0).getD (i - b) []) = true := by
    rw [hgetc0 _ hmlt, show b + (i - b) = i by omega]
    exact hiarr
  have hmpre2 : ∀ j, j < i - b → trimStr ((linesOf c0).getD j []) ≠ [] ∧
      containsArrow ((linesOf c0).getD j []) = false := by
    intro j hj
    rw [hgetc0 _ (by omega)]
    exact ⟨hnb (b + j) (by omega) (by omega), hipre (b + j) (by omega)⟩
  have hc0arr : containsArrow c0 = true := by
    rw [← joinSep_linesOf c0, containsArrow_joinSep_nl]
    apply List.any_eq_true.mpr
    exact ⟨(linesOf c0).getD (i - b) [], getD_mem hmlt [], hmarr2⟩
  have hc0ne : trimStr c0 ≠ [] := by
    have hdash : '-' ∈ c0 := ((containsArrow_iff_marker_sub c0).mp hc0arr).subset (by simp)
    exact trimStr_ne_nil_of_mem hdash (by decide)
  have hc0blank : (!(trimStr c0).isEmpty) = true := by
    rcases htc : trimStr c0 with _ | ⟨x, xs⟩
    · exact absurd htc hc0ne
    · rfl
  have hcues_eq : (splitDNL (joinSep ['\n'] (LNS.drop b))).filter
      (fun cue => !(trimStr cue).isEmpty) =
      c0 :: fs.filter (fun cue => !(trimStr cue).isEmpty) := by
    rw [hsd]
    simp only [List.filter_cons, hc0blank, if_true]
  have hcr2 : ∀ f ∈ (splitDNL (joinSep ['\n'] (LNS.drop b))).filter
      (fun cue => !(trimStr cue).isEmpty), '\r' ∉ f := by
    intro f hf hmem
    have hf0 : f ∈ splitDNL (joinSep ['\n'] (LNS.drop b)) := List.mem_of_mem_filter hf
    rcases mem_joinSep (splitDNL_mem hf0 hmem) with hsep | ⟨l, hl, hcl⟩
    · simp at hsep
    · exact hcrl l (List.drop_subset _ _ hl) hcl
  have hprops2 : ∀ f ∈ (splitDNL (joinSep ['\n'] (LNS.drop b))).filter
      (fun cue => !(trimStr cue).isEmpty),
      noDNL f = true ∧ f ≠ [] ∧ f.head? ≠ some '\n' := by
    intro f hf
    have hfm2 := List.mem_filter.mp hf
    refine ⟨(hfrag.1 f hfm2.1).1, ?_, (hfrag.1 f hfm2.1).2⟩
    intro hfe
    have hpf := hfm2.2
    rw [hfe] at hpf
    exact Bool.noConfusion hpf
  have hlastp2 : ∀ f ∈ ((splitDNL (joinSep ['\n'] (LNS.drop b))).filter
      (fun cue => !(trimStr cue).isEmpty)).dropLast, f.getLast? ≠ some '\n' := by
    intro f hf
    exact hfrag.2 f (mem_dropLast_filter _ _ f hf)
  have hblank2 : ∀ f ∈ (splitDNL (joinSep ['\n'] (LNS.drop b))).filter
      (fun cue => !(trimStr cue).isEmpty), (!(trimStr f).isEmpty) = true := by
    intro f hf
    exact (List.mem_filter.mp hf).2
  exact resplit_marker_core _ _ (trimStr_idem _) hharr hhcr c0 _ hcues_eq hcr2 hprops2
    hlastp2 hblank2 (i - b) hmlt hmarr2 hmpre2

theorem split_recombine_roundtrip (d : List Char) (hw : noStrayCR d = true) :
    splitVttIntoCues (recombine (splitVttIntoCues d).1 (splitVttIntoCues d).2) =
      splitVttIntoCues d := by
  rcases hfm : findMarkerIdx (linesOf (normalizeNl d)) with _ | i
  · have hall := findMarkerIdx_none_mem hfm
    have harrS : containsArrow (normalizeNl d) = false := by
      rw [← joinSep_linesOf (normalizeNl d), containsArrow_joinSep_nl]
      apply List.any_eq_false.mpr
      intro l hl
      rw [hall l hl]
      simp
    have harrd : containsArrow d = false := by
      rw [← containsArrow_normalizeNl]
      exact harrS
    have hsplitA : splitVttIntoCues d = (trimStr d, []) := by
      dsimp only [splitVttIntoCues]
      rw [hfm]
    rw [hsplitA]
    by_cases htd : trimStr d = []
    · have hrec : recombine (trimStr d, ([] : List (List Char))).1
          (trimStr d, ([] : List (List Char))).2 = [] := by
        show recombine (trimStr d) [] = []
        rw [recombine, if_pos htd]
        rfl
      rw [hrec, split_of_no_marker [] rfl, htd]
      rfl
    · have hrec : recombine (trimStr d, ([] : List (List Char))).1
          (trimStr d, ([] : List (List Char))).2 = trimStr d ++ nl2 := by
        show recombine (trimStr d) [] = trimStr d ++ nl2
        rw [recombine, if_neg htd]
        rw [show joinSep nl2 ([] : List (List Char)) = [] from rfl, List.append_nil]
      have harrR : containsArrow (trimStr d ++ nl2) = false := by
        rw [show trimStr d ++ nl2 = trimStr d ++ '\n' :: ['\n'] from rfl, containsArrow_append_nl]
        rw [containsArrow_false_of_sub (trimStr_infix_self d) harrd]
        rfl
      have hws : ∀ c ∈ nl2, isWsChar c = true := by
        intro c hc
        simp [nl2] at hc
        rw [hc]
        rfl
      rw [hrec, split_of_no_marker _ harrR, trimStr_append_ws hws, trimStr_idem]
  · have hsplitB : splitVttIntoCues d =
        (trimStr (joinSep ['\n'] ((linesOf (normalizeNl d)).take
            (walkBack (linesOf (normalizeNl d)) i))),
         (splitDNL (joinSep ['\n'] ((linesOf (normalizeNl d)).drop
            (walkBack (linesOf (normalizeNl d)) i)))).filter
           (fun cue => !(trimStr cue).isEmpty)) := by
      dsimp only [splitVttIntoCues]
      rw [hfm]
    rw [hsplitB]
    exact resplit_of_marker (linesOf (normalizeNl d)) (linesOf_no_nl _)
      (fun l hl hc => noStrayCR_no_cr hw (mem_of_mem_linesOf hl hc)) i hfm

/-- C2: for every well-formed document (no stray carriage return), if splitting
yields header `H` and cue list `C`, then re-splitting the recombination of `H`
and `C` joined by blank-line separators yields exactly the same header `H` and
the identical cue list `C` in the same order. -/
theorem C2_split_recombine_idempotent (d : List Char) (hwf : noStrayCR d = true)
    (H : List Char) (C : List (List Char)) (hsplit : splitVttIntoCues d = (H, C)) :
    splitVttIntoCues (recombine H C) = (H, C) := by
  have hrt := split_recombine_roundtrip d hwf
  rw [hsplit] at hrt
  simpa using hrt

/-- Witness for C2 on a concrete two-cue document. -/
theorem C2_witness :
    noStrayCR "WEBVTT\n\n1\n00:00 --> 00:01\nhi\n\n2\n00:02 --> 00:03\nyo".toList = true ∧
    splitVttIntoCues (recombine "WEBVTT".toList
        ["1\n00:00 --> 00:01\nhi".toList, "2\n00:02 --> 00:03\nyo".toList]) =
      ("WEBVTT".toList, ["1\n00:00 --> 00:01\nhi".toList, "2\n00:02 --> 00:03\nyo".toList]) :=
  ⟨by decide,
   C2_split_recombine_idempotent
     "WEBVTT\n\n1\n00:00 --> 00:01\nhi\n\n2\n00:02 --> 00:03\nyo".toList (by decide) _ _
     (by simp [splitVttIntoCues, normalizeNl, linesOf, findMarkerIdx, containsArrow, walkBack,
       trimStr, isWsChar, joinSep, splitDNL, splitDNLAux, dropNls])⟩
